import Mathlib

/-!
Verification of the ext2 filesystem stack of a small teaching kernel
(block allocator, block map, file read/write, inode cache, path walking),
as a shallow embedding of the C sources in Lean 4.

Conventions of the embedding:
* machine bytes are `Nat` values; every read through a `u8` lens applies
  `% 256`, mirroring the C storage type;
* a disk block is a function from byte index to byte, a disk is a function
  from absolute block number to block (the buffer cache is write-through in
  the source, so buffered and on-disk state coincide except for buffers
  mutated and released without `bwrite`, which no modelled operation
  observes afterwards);
* `u32` arithmetic that can wrap in C is modelled with explicit `% 2^32`;
* a C function that can `panic` is modelled with an `Option`/result type
  whose `none`-like constructor marks the panic;
* delegation to the device switch (`ip->type == T_DEV`) is marked by a
  dedicated result constructor and not modelled further, since every
  property below concerns non-device inodes.
-/

namespace XV6

/-! ### Bytes, blocks and the disk -/

/-- A 1024-byte disk block, as a byte-indexed function. -/
abbrev Block := Nat → Nat

/-- Read one byte (`u8` lens) from a block. -/
def byteAt (b : Block) (i : Nat) : Nat := b i % 256

/-- Store one byte into a block. -/
def setByte (b : Block) (i v : Nat) : Block := fun k => if k = i then v else b k

/-- The all-zero block (`memset(bp->data, 0, BSIZE)`). -/
def zeroBlock : Block := fun _ => 0

/-- The disk: absolute block number to block contents. -/
abbrev Disk := Nat → Block

/-- `bwrite`: replace one block of the disk. -/
def writeBlock (d : Disk) (bno : Nat) (b : Block) : Disk :=
  fun k => if k = bno then b else d k

/-- Read a little-endian `u16` at byte offset `off` of a block. -/
def read16 (b : Block) (off : Nat) : Nat :=
  byteAt b off + 256 * byteAt b (off + 1)

/-- Read a little-endian `u32` at byte offset `off` of a block. -/
def read32 (b : Block) (off : Nat) : Nat :=
  byteAt b off + 256 * byteAt b (off + 1) + 65536 * byteAt b (off + 2) +
    16777216 * byteAt b (off + 3)

/-- Read entry `i` of a block viewed as a `u32` array (`a = (u32 *)bp->data`). -/
def read32idx (b : Block) (i : Nat) : Nat := read32 b (4 * i)

/-- Store a little-endian `u16` at byte offset `off`. -/
def set16 (b : Block) (off v : Nat) : Block :=
  setByte (setByte b off (v % 256)) (off + 1) (v / 256 % 256)

/-- Store a little-endian `u32` at byte offset `off`. -/
def set32 (b : Block) (off v : Nat) : Block :=
  setByte (setByte (setByte (setByte b off (v % 256)) (off + 1) (v / 256 % 256))
    (off + 2) (v / 65536 % 256)) (off + 3) (v / 16777216 % 256)

/-- Store entry `i` of a block viewed as a `u32` array. -/
def set32idx (b : Block) (i v : Nat) : Block := set32 b (4 * i) v

/-- `memmove(bp->data + off, src + srcOff, m)`: copy `m` bytes into a block. -/
def setBytes (b : Block) (off : Nat) (src : Nat → Nat) (srcOff m : Nat) : Block :=
  fun k => if off ≤ k ∧ k < off + m then src (srcOff + (k - off)) % 256 else b k

/-! ### Constants from `fs.h`, `stat.h`, `ext2.h` -/

def U32 : Nat := 4294967296

def T_DIR : Nat := 1
def T_FILE : Nat := 2
def T_DEV : Nat := 3

def DIRSIZ : Nat := 14
def ROOTINO : Nat := 1
def EXT2INO : Nat := 2

def EXT2_BSIZE : Nat := 1024
def EXT2_NDIR_BLOCKS : Nat := 12
def EXT2_IND_BLOCK : Nat := 12
def EXT2_DIND_BLOCK : Nat := 13
def EXT2_TIND_BLOCK : Nat := 14
def EXT2_INDIRECT : Nat := EXT2_BSIZE / 4
def EXT2_DINDIRECT : Nat := EXT2_INDIRECT * EXT2_INDIRECT
def EXT2_TINDIRECT : Nat := EXT2_INDIRECT * EXT2_DINDIRECT
def EXT2_MAXFILE : Nat := EXT2_NDIR_BLOCKS + EXT2_INDIRECT + EXT2_DINDIRECT + EXT2_TINDIRECT
def EXT2_NAME_LEN : Nat := 255

/-- Modelled from the spec: `EXT2_MAX_INODE_SIZE` is used by `ext2fs_iupdate`
and `ext2fs_ilock` but defined in a header not present in the source tree;
the spec (§6) states the inode size "may be ≤ 256". -/
def EXT2_MAX_INODE_SIZE : Nat := 256

def S_IFREG : Nat := 32768
def S_IFDIR : Nat := 16384
def S_IFCHR : Nat := 8192
def S_IFMT : Nat := 61440

/-! ### Mounted-filesystem constants (superblock cache and partition offset) -/

/-- The cached superblock fields the driver reads. -/
structure SB where
  s_first_data_block : Nat
  s_blocks_per_group : Nat
  s_inodes_per_group : Nat
  s_inode_size : Nat
  s_blocks_count : Nat

/-- Mounted-volume constants: superblock cache plus `first_partition_block`. -/
structure FS where
  sb : SB
  fp : Nat

/-- The block holding the group descriptor table
(`desc_blockno = first_partition_block + 2`). -/
def descBlockno (fs : FS) : Nat := fs.fp + 2

/-- `GET_GROUP_NO(inum, ext2_sb)`; faithful for `inum ≥ 1`
(the C computes `(inum - 1)` in `u32`). -/
def groupNo (fs : FS) (inum : Nat) : Nat := (inum - 1) / fs.sb.s_inodes_per_group

/-- `GET_INODE_INDEX(inum, ext2_sb)`. -/
def inodeIndex (fs : FS) (inum : Nat) : Nat := (inum - 1) % fs.sb.s_inodes_per_group

/-- `bg_block_bitmap` of group `gno`, read from the descriptor table block
(the descriptor struct is 32 bytes; the field is at offset 0). -/
def bgBlockBitmap (fs : FS) (d : Disk) (gno : Nat) : Nat :=
  read32 (d (descBlockno fs)) (gno * 32)

/-- `bg_inode_bitmap` of group `gno` (offset 4 of the descriptor). -/
def bgInodeBitmap (fs : FS) (d : Disk) (gno : Nat) : Nat :=
  read32 (d (descBlockno fs)) (gno * 32 + 4)

/-- `bg_inode_table` of group `gno` (offset 8 of the descriptor). -/
def bgInodeTable (fs : FS) (d : Disk) (gno : Nat) : Nat :=
  read32 (d (descBlockno fs)) (gno * 32 + 8)

/-! ### Bitmap scanning: `ext2fs_get_free_bit` -/

/-- The MSB-first mask the source uses: `1 << (7 - j)` for bit `j` of a byte. -/
def bitMask (j : Nat) : Nat := 2 ^ (7 - j)

/-- Whether bit `k` of the bitmap block is clear
(`(bitmap[k/8] & (1 << (7 - k%8))) == 0`). -/
def bitFree (bm : Block) (k : Nat) : Bool := byteAt bm (k / 8) &&& bitMask (k % 8) == 0

/-- The range of bits `ext2fs_get_free_bit` examines: the outer loop runs
`i < (nbits+7)/8` and `i < EXT2_BSIZE`, the inner loop breaks at `bit ≥ nbits`,
so exactly the bits below `min nbits 8192` are scanned, in increasing order. -/
def scanLimit (nbits : Nat) : Nat := min nbits 8192

/-- The bit index `ext2fs_get_free_bit` picks: the first clear bit in scan order. -/
def getFreeBitIdx (bm : Block) (nbits : Nat) : Option Nat :=
  (List.range (scanLimit nbits)).find? (fun k => bitFree bm k)

/-- `ext2fs_get_free_bit`: find the first clear bit, set it in the caller's
buffer, and return its index; `none` models the `(u32)-1` failure return. -/
def ext2fs_get_free_bit (bm : Block) (nbits : Nat) : Option (Nat × Block) :=
  match getFreeBitIdx bm nbits with
  | none => none
  | some k =>
      some (k, setByte bm (k / 8) (byteAt bm (k / 8) ||| bitMask (k % 8)))

/-! ### Block allocation and freeing -/

/-- `ext2fs_balloc(dev, inum)`: allocate a block in the group of `inum`.
Returns the partition-relative block number and the new disk
(bitmap written back, then the new block zeroed); `none` models the
"out of blocks" panic. -/
def ext2fs_balloc (fs : FS) (d : Disk) (inum : Nat) : Option (Nat × Disk) :=
  let gno := groupNo fs inum
  let bbm := bgBlockBitmap fs d gno
  match ext2fs_get_free_bit (d (bbm + fs.fp)) fs.sb.s_blocks_per_group with
  | none => none
  | some (fbit, bm') =>
      let d1 := writeBlock d (bbm + fs.fp) bm'
      let rel := fs.sb.s_first_data_block + gno * fs.sb.s_blocks_per_group + fbit
      let d2 := writeBlock d1 (rel + fs.fp) zeroBlock
      some (rel, d2)

/-- Outcome of `ext2fs_bfree`: the three panics are distinguished
(`"invalid block"`, `"bitmap overflow"`, `"block already free"`),
`ok` carries the disk with the bitmap block written back. -/
inductive BfreeRes where
  | invalidBlock : BfreeRes
  | bitmapOverflow : BfreeRes
  | alreadyFree : BfreeRes
  | ok (d : Disk) : BfreeRes

/-- `ext2fs_bfree(dev, b)`: clear the bit of partition-relative block `b`. -/
def ext2fs_bfree (fs : FS) (d : Disk) (b : Nat) : BfreeRes :=
  if b < fs.sb.s_first_data_block then .invalidBlock
  else
    let bi := b - fs.sb.s_first_data_block
    let gno := bi / fs.sb.s_blocks_per_group
    let offs := bi % fs.sb.s_blocks_per_group
    let bbm := bgBlockBitmap fs d gno
    let bm := d (bbm + fs.fp)
    let byi := offs / 8
    if 1024 ≤ byi then .bitmapOverflow
    else
      let mask := bitMask (offs % 8)
      if byteAt bm byi &&& mask = 0 then .alreadyFree
      else .ok (writeBlock d (bbm + fs.fp) (setByte bm byi (byteAt bm byi &&& (255 ^^^ mask))))

/-! ### The block map: `ext2fs_bmap` -/

/-- In-memory `addrs` array of an inode (`struct ext2fs_addrs.addrs`,
15 entries; we index it as a function). -/
abbrev Addrs := Nat → Nat

def setAddr (ad : Addrs) (i v : Nat) : Addrs := fun k => if k = i then v else ad k

/-- One step through a top-level `addrs` slot, allocating if zero
(the shared pattern `if ((addr = ad->addrs[slot]) == 0) { balloc; store }`). -/
def bmapTop (fs : FS) (d : Disk) (ad : Addrs) (inum slot : Nat) :
    Option (Nat × Disk × Addrs) :=
  if ad slot = 0 then
    match ext2fs_balloc fs d inum with
    | none => none
    | some (r, d') => some (r, d', setAddr ad slot r)
  else some (ad slot, d, ad)

/-- One step through an indirect block at absolute address `blkAddr`:
read entry `idx`; if zero, allocate a block, store the entry in the buffer
snapshot and write the block back (`a[idx] = entry; bwrite(bp)`). -/
def bmapIndirect (fs : FS) (d : Disk) (inum blkAddr idx : Nat) :
    Option (Nat × Disk) :=
  let bp := d blkAddr
  let entry := read32idx bp idx
  if entry = 0 then
    match ext2fs_balloc fs d inum with
    | none => none
    | some (e, d') => some (e, writeBlock d' blkAddr (set32idx bp idx e))
  else some (entry, d)

/-- `ext2fs_bmap(ip, bn)`: four-level block addressing, allocating missing
blocks; returns the absolute (partition-start-adjusted) block number, the
disk and the updated `addrs`; `none` models the out-of-range panic and the
allocator panic. -/
def ext2fs_bmap (fs : FS) (d : Disk) (ad : Addrs) (inum bn : Nat) :
    Option (Nat × Disk × Addrs) :=
  if bn < EXT2_NDIR_BLOCKS then
    match bmapTop fs d ad inum bn with
    | none => none
    | some (r, d', ad') => some (r + fs.fp, d', ad')
  else
    let bn1 := bn - EXT2_NDIR_BLOCKS
    if bn1 < EXT2_INDIRECT then
      match bmapTop fs d ad inum EXT2_IND_BLOCK with
      | none => none
      | some (addr, d1, ad1) =>
          match bmapIndirect fs d1 inum (fs.fp + addr) bn1 with
          | none => none
          | some (e, d2) => some (e + fs.fp, d2, ad1)
    else
      let bn2 := bn1 - EXT2_INDIRECT
      if bn2 < EXT2_DINDIRECT then
        match bmapTop fs d ad inum EXT2_DIND_BLOCK with
        | none => none
        | some (addr, d1, ad1) =>
            match bmapIndirect fs d1 inum (fs.fp + addr) (bn2 / EXT2_INDIRECT) with
            | none => none
            | some (mid, d2) =>
                match bmapIndirect fs d2 inum (fs.fp + mid) (bn2 % EXT2_INDIRECT) with
                | none => none
                | some (leaf, d3) => some (leaf + fs.fp, d3, ad1)
      else
        let bn3 := bn2 - EXT2_DINDIRECT
        if bn3 < EXT2_TINDIRECT then
          match bmapTop fs d ad inum EXT2_TIND_BLOCK with
          | none => none
          | some (addr, d1, ad1) =>
              match bmapIndirect fs d1 inum (fs.fp + addr) (bn3 / EXT2_DINDIRECT) with
              | none => none
              | some (mid, d2) =>
                  match bmapIndirect fs d2 inum
                      (fs.fp + mid) (bn3 % EXT2_DINDIRECT / EXT2_INDIRECT) with
                  | none => none
                  | some (mid2, d3) =>
                      match bmapIndirect fs d3 inum
                          (fs.fp + mid2) (bn3 % EXT2_DINDIRECT % EXT2_INDIRECT) with
                      | none => none
                      | some (leaf, d4) => some (leaf + fs.fp, d4, ad1)
        else none

/-! ### `ext2fs_iupdate` -/

/-- `memmove(din->i_block, ad->addrs, sizeof(ad->addrs))`: store the 15
`addrs` entries at byte offset `slotOff + 40` (the `i_block` field). -/
def putAddrs (b : Block) (slotOff : Nat) (ad : Addrs) : Nat → Block
  | 0 => b
  | i + 1 => set32 (putAddrs b slotOff ad i) (slotOff + 40 + 4 * i) (ad i)

/-- Encode the in-memory inode into its on-disk slot: the source reads the
slot, overwrites mode (from type), link count, size and the 15 `addrs`,
zeroes the listed timestamp/ownership fields, and writes the slot back.
`slotOff` is the byte offset of the slot inside its block. -/
def inodeSlotUpdate (bp : Block) (slotOff typ nlink size : Nat) (ad : Addrs) : Block :=
  let b0 := if typ = T_DIR then set16 bp slotOff S_IFDIR
            else if typ = T_FILE then set16 bp slotOff S_IFREG
            else if typ = T_DEV then set16 bp slotOff S_IFCHR
            else bp
  let b1 := set16 b0 (slotOff + 26) nlink
  let b2 := set32 b1 (slotOff + 4) size
  let b3 := set32 b2 (slotOff + 20) 0
  let b4 := set32 b3 (slotOff + 112) 0
  let b5 := set32 b4 (slotOff + 104) 0
  let b6 := set32 b5 (slotOff + 32) 0
  let b7 := set32 b6 (slotOff + 100) 0
  let b8 := set16 b7 (slotOff + 24) 0
  let b9 := set32 b8 (slotOff + 16) 0
  let b10 := set16 b9 (slotOff + 2) 0
  let b11 := set32 b10 (slotOff + 8) 0
  putAddrs b11 slotOff ad 15

/-- The absolute block number holding the inode slot of `inum`
(`bno = bg_inode_table + ioff / (EXT2_BSIZE / inode_size) + first_partition_block`). -/
def inodeBlockno (fs : FS) (d : Disk) (inum : Nat) : Nat :=
  bgInodeTable fs d (groupNo fs inum) +
    inodeIndex fs inum / (EXT2_BSIZE / fs.sb.s_inode_size) + fs.fp

/-- The slot index of `inum` within its inode block. -/
def inodeSlotIdx (fs : FS) (inum : Nat) : Nat :=
  inodeIndex fs inum % (EXT2_BSIZE / fs.sb.s_inode_size)

/-- `ext2fs_iupdate(ip)`: write the inode back to its slot; `none` models the
"inode too large" panic. -/
def ext2fs_iupdate (fs : FS) (d : Disk) (ad : Addrs) (typ nlink size inum : Nat) :
    Option Disk :=
  if EXT2_MAX_INODE_SIZE < fs.sb.s_inode_size then none
  else
    let bno := inodeBlockno fs d inum
    let bp := d bno
    some (writeBlock d bno
      (inodeSlotUpdate bp (inodeSlotIdx fs inum * fs.sb.s_inode_size) typ nlink size ad))

/-! ### `ext2fs_readi` and `ext2fs_writei` -/

/-- The copy loop of `ext2fs_readi`: returns the bytes copied to `dst`
plus the threaded disk and `addrs`; `none` models a panic inside `bmap`. -/
def readLoop (fs : FS) (d : Disk) (ad : Addrs) (inum off rem : Nat) :
    Option (List Nat × Disk × Addrs) :=
  if h : rem = 0 then some ([], d, ad)
  else
    match ext2fs_bmap fs d ad inum (off / EXT2_BSIZE) with
    | none => none
    | some (b, d1, ad1) =>
        let m := min rem (EXT2_BSIZE - off % EXT2_BSIZE)
        let chunk := (List.range m).map (fun i => byteAt (d1 b) (off % EXT2_BSIZE + i))
        match readLoop fs d1 ad1 inum (off + m) (rem - m) with
        | none => none
        | some (rest, d2, ad2) => some (chunk ++ rest, d2, ad2)
termination_by rem
decreasing_by
  have h1 : 0 < min rem (EXT2_BSIZE - off % EXT2_BSIZE) := by
    apply lt_min (Nat.pos_of_ne_zero h)
    have : off % EXT2_BSIZE < EXT2_BSIZE := Nat.mod_lt _ (by norm_num [EXT2_BSIZE])
    omega
  omega

/-- Result of `ext2fs_readi`. `device` marks delegation to the device
switch (`ip->type == T_DEV`), `err` the `-1` return, `panicked` a panic in
`bmap`; `ok` carries the return value, the bytes copied to `dst`, and the
threaded state. -/
inductive ReadRes where
  | device : ReadRes
  | err : ReadRes
  | panicked : ReadRes
  | ok (r : Nat) (out : List Nat) (d : Disk) (ad : Addrs) : ReadRes

/-- `ext2fs_readi(ip, dst, off, n)` for an inode with the given type, size,
number and `addrs`. -/
def ext2fs_readi (fs : FS) (d : Disk) (ad : Addrs) (typ size inum off n : Nat) :
    ReadRes :=
  if typ = T_DEV then .device
  else if size < off ∨ (off + n) % U32 < off then .err
  else
    let n1 := if size < (off + n) % U32 then size - off else n
    match readLoop fs d ad inum off n1 with
    | none => .panicked
    | some (out, d', ad') => .ok n1 out d' ad'

/-- The copy loop of `ext2fs_writei`: writes each chunk into its block and
writes the block back. -/
def writeLoop (fs : FS) (d : Disk) (ad : Addrs) (inum off rem : Nat)
    (src : Nat → Nat) (srcOff : Nat) : Option (Disk × Addrs) :=
  if h : rem = 0 then some (d, ad)
  else
    match ext2fs_bmap fs d ad inum (off / EXT2_BSIZE) with
    | none => none
    | some (b, d1, ad1) =>
        let m := min rem (EXT2_BSIZE - off % EXT2_BSIZE)
        let d2 := writeBlock d1 b (setBytes (d1 b) (off % EXT2_BSIZE) src srcOff m)
        writeLoop fs d2 ad1 inum (off + m) (rem - m) src (srcOff + m)
termination_by rem
decreasing_by
  have h1 : 0 < min rem (EXT2_BSIZE - off % EXT2_BSIZE) := by
    apply lt_min (Nat.pos_of_ne_zero h)
    have : off % EXT2_BSIZE < EXT2_BSIZE := Nat.mod_lt _ (by norm_num [EXT2_BSIZE])
    omega
  omega

/-- Result of `ext2fs_writei`: as for reads, plus the updated size. -/
inductive WriteRes where
  | device : WriteRes
  | err : WriteRes
  | panicked : WriteRes
  | ok (r : Nat) (d : Disk) (ad : Addrs) (size' : Nat) : WriteRes

/-- `ext2fs_writei(ip, src, off, n)`. The maximum-size comparison mirrors
the C expression `off + n > EXT2_MAXFILE * EXT2_BSIZE`, whose constant is
computed in 32-bit unsigned arithmetic. -/
def ext2fs_writei (fs : FS) (d : Disk) (ad : Addrs)
    (typ nlink size inum off n : Nat) (src : Nat → Nat) : WriteRes :=
  if typ = T_DEV then .device
  else if size < off ∨ (off + n) % U32 < off then .err
  else if EXT2_MAXFILE * EXT2_BSIZE % U32 < (off + n) % U32 then .err
  else
    match writeLoop fs d ad inum off n src 0 with
    | none => .panicked
    | some (d1, ad1) =>
        if 0 < n ∧ size < off + n then
          match ext2fs_iupdate fs d1 ad1 typ nlink (off + n) inum with
          | none => .panicked
          | some d2 => .ok n d2 ad1 (off + n)
        else .ok n d1 ad1 size

/-! ### The file-block layout induced by `addrs` and the indirect blocks

`slotVal` reads the same chains `ext2fs_bmap` walks, without allocating:
it is the read-only denotation of the block map, used to state which file
blocks are mapped and where. -/

/-- A position in the four-level block map: a direct slot, the single
indirect top block or one of its entries, and likewise for the double and
triple levels. -/
inductive Pos where
  | direct (i : Nat) : Pos
  | indTop : Pos
  | indLeaf (j : Nat) : Pos
  | dindTop : Pos
  | dindMid (j : Nat) : Pos
  | dindLeaf (j l : Nat) : Pos
  | tindTop : Pos
  | tindMid (j : Nat) : Pos
  | tindMid2 (j l : Nat) : Pos
  | tindLeaf (j l k : Nat) : Pos
deriving DecidableEq

/-- A top-level `addrs` slot, `none` when unset. -/
def slotTop (ad : Addrs) (s : Nat) : Option Nat :=
  if ad s = 0 then none else some (ad s)

/-- Entry `j` of the indirect block at partition-relative address `r`,
`none` when the entry is zero. -/
def entryOf (fs : FS) (d : Disk) (r j : Nat) : Option Nat :=
  if read32idx (d (fs.fp + r)) j = 0 then none else some (read32idx (d (fs.fp + r)) j)

/-- The partition-relative block number stored at a map position, `none`
when any link of the chain is unset. -/
def slotVal (fs : FS) (d : Disk) (ad : Addrs) : Pos → Option Nat
  | .direct i => if i < 12 then slotTop ad i else none
  | .indTop => slotTop ad 12
  | .indLeaf j =>
      if j < 256 then (slotTop ad 12).bind (fun r => entryOf fs d r j) else none
  | .dindTop => slotTop ad 13
  | .dindMid j =>
      if j < 256 then (slotTop ad 13).bind (fun r => entryOf fs d r j) else none
  | .dindLeaf j l =>
      if j < 256 ∧ l < 256 then
        (slotTop ad 13).bind (fun r =>
          (entryOf fs d r j).bind (fun m => entryOf fs d m l))
      else none
  | .tindTop => slotTop ad 14
  | .tindMid j =>
      if j < 256 then (slotTop ad 14).bind (fun r => entryOf fs d r j) else none
  | .tindMid2 j l =>
      if j < 256 ∧ l < 256 then
        (slotTop ad 14).bind (fun r =>
          (entryOf fs d r j).bind (fun m => entryOf fs d m l))
      else none
  | .tindLeaf j l k =>
      if j < 256 ∧ l < 256 ∧ k < 256 then
        (slotTop ad 14).bind (fun r =>
          (entryOf fs d r j).bind (fun m =>
            (entryOf fs d m l).bind (fun m2 => entryOf fs d m2 k)))
      else none

/-- The data position of file block `bn` in the four-level map. -/
def dataPos (bn : Nat) : Pos :=
  if bn < 12 then .direct bn
  else if bn < 12 + 256 then .indLeaf (bn - 12)
  else if bn < 12 + 256 + 65536 then
    .dindLeaf ((bn - 268) / 256) ((bn - 268) % 256)
  else
    .tindLeaf ((bn - 65804) / 65536) ((bn - 65804) % 65536 / 256)
      ((bn - 65804) % 65536 % 256)

/-- Byte `a` of the file contents: the byte at offset `a % 1024` of the
disk block mapped for file block `a / 1024` (0 when unmapped). -/
def fileByteD (fs : FS) (d : Disk) (ad : Addrs) (a : Nat) : Nat :=
  match slotVal fs d ad (dataPos (a / EXT2_BSIZE)) with
  | some r => byteAt (d (r + fs.fp)) (a % EXT2_BSIZE)
  | none => 0

/-! ### The in-memory inode cache (`fs.c`: `iget`, `idup`, `iput`)

The cache is a fixed array of entries under one spinlock; the embedding is
a list of entries, operations returning the updated list. `iget` performs
the single scan of the source: return the first live `(dev, inum)` match
with its refcount bumped, else populate the first free slot (leaving the
other fields — in particular `iops` and `addrs` — untouched, as the C
does), else panic (`none`). -/

/-- An in-memory inode slot (`struct inode` of `file.h`); `iops` models
whether the operations vtable pointer is wired (non-null), `addrs` the
heap-resident addrs block (null when `none`). -/
structure Ent where
  dev : Nat
  inum : Nat
  ref : Nat
  valid : Nat
  typ : Nat
  major : Nat
  minor : Nat
  nlink : Nat
  size : Nat
  iops : Bool
  addrs : Option Addrs

/-- The zero-initialized slot (C global arrays start zeroed). -/
def ent0 : Ent :=
  { dev := 0, inum := 0, ref := 0, valid := 0, typ := 0, major := 0, minor := 0,
    nlink := 0, size := 0, iops := false, addrs := none }

instance : Inhabited Ent := ⟨ent0⟩

/-- `iget(dev, inum)`: one pass over the cache; first live match is
returned with `ref++`, else the first `ref == 0` slot is repopulated
(only `dev`, `inum`, `ref`, `valid` are written), else panic. -/
def iget (l : List Ent) (dev inum : Nat) : Option (List Ent × Nat) :=
  match l.findIdx? (fun e =>
      decide (0 < e.ref) && decide (e.dev = dev) && decide (e.inum = inum)) with
  | some i =>
      some (l.set i { l.getD i ent0 with ref := (l.getD i ent0).ref + 1 }, i)
  | none =>
      match l.findIdx? (fun e => decide (e.ref = 0)) with
      | some j =>
          some (l.set j
            { l.getD j ent0 with dev := dev, inum := inum, ref := 1, valid := 0 }, j)
      | none => none

/-- `idup(ip)`: increment the refcount of slot `i`. -/
def idup (l : List Ent) (i : Nat) : List Ent :=
  l.set i { l.getD i ent0 with ref := (l.getD i ent0).ref + 1 }

/-- The refcount-release tail of `ext2fs_iput`: `ip->ref--` and, when the
count reaches zero, release the addrs slot (`ad->busy = 0; ip->addrs = 0`). -/
def iputRelease (l : List Ent) (i : Nat) : List Ent :=
  let e := l.getD i ent0
  if e.ref - 1 = 0 then l.set i { e with ref := e.ref - 1, addrs := none }
  else l.set i { e with ref := e.ref - 1 }

/-- The inode-cache invariant: no two live entries (nonzero refcount)
share the same `(device, inum)` pair. -/
def icacheInv (l : List Ent) : Prop :=
  ∀ i < l.length, ∀ j < l.length, i ≠ j →
    0 < (l.getD i ent0).ref → 0 < (l.getD j ent0).ref →
    ¬((l.getD i ent0).dev = (l.getD j ent0).dev ∧
      (l.getD i ent0).inum = (l.getD j ent0).inum)

instance icacheInvDecidable (l : List Ent) : Decidable (icacheInv l) :=
  decidable_of_iff (∀ i < l.length, ∀ j < l.length,
      ¬(i ≠ j ∧ 0 < (l.getD i ent0).ref ∧ 0 < (l.getD j ent0).ref ∧
        (l.getD i ent0).dev = (l.getD j ent0).dev ∧
        (l.getD i ent0).inum = (l.getD j ent0).inum))
    (by
      unfold icacheInv
      constructor
      · intro h i hi j hj hne hri hrj hc
        exact h i hi j hj ⟨hne, hri, hrj, hc.1, hc.2⟩
      · intro h i hi j hj hc
        exact h i hi j hj hc.1 hc.2.1 hc.2.2.1 ⟨hc.2.2.2.1, hc.2.2.2.2⟩)

/-! ### The path resolver entry (`fs.c`: `namex`) -/

/-- The first step of `namex(path, nameiparent, name)`: an absolute path
starts from `iget(ROOTDEV, ROOTINO)`, any other path from
`idup(myproc()->cwd)`. `rootdev` abstracts the `ROOTDEV` constant of the
missing `param.h`; the claim concerns only the inode number. -/
def namexStart (rootdev : Nat) (l : List Ent) (cwd : Nat) (path : List Char) :
    Option (List Ent × Nat) :=
  if path.headD (Char.ofNat 0) = '/' then iget l rootdev ROOTINO
  else some (idup l cwd, cwd)

/-! ### The component extractor (`fs.c`: `skipelem`) -/

/-- `while (*path == '/') path++`. -/
def skipSlashes : List Char → List Char
  | [] => []
  | c :: t => if c = '/' then skipSlashes t else c :: t

/-- `s = path; while (*path != '/' && *path != 0) path++`: the component
and the rest. -/
def scanComp : List Char → List Char × List Char
  | [] => ([], [])
  | c :: t =>
      if c = '/' then ([], c :: t)
      else
        let (cs, r) := scanComp t
        (c :: cs, r)

/-- `skipelem(path, name)`: `none` is the "no more elements" null return;
otherwise the remainder pointer (trailing slashes skipped), the bytes
copied into `name` (at most `DIRSIZ`), and whether a terminating NUL was
written (only when the component is shorter than `DIRSIZ`). -/
def skipelem (path : List Char) : Option (List Char × List Char × Bool) :=
  match skipSlashes path with
  | [] => none
  | c :: t =>
      let (cs, r) := scanComp (c :: t)
      some (skipSlashes r, cs.take DIRSIZ, decide (cs.length < DIRSIZ))

/-- The root-inode cache entry produced by `iget` on a cold cache. -/
def entRoot : Ent := { ent0 with dev := 1, inum := ROOTINO, ref := 1, valid := 0 }

/-! ### The write-pass invariant for the write/read round trip

The proof of the round trip maintains, across every `balloc` performed by
`ext2fs_bmap` during a write, that the block map stays injective, its
blocks have their bitmap bits set, and no mapped block collides with the
descriptor table, the block bitmap, or the inode-table block that the
final `iupdate` writes. -/

/-- The first partition-relative block of the group `balloc` allocates
from for inode `inum` (`s_first_data_block + gno * s_blocks_per_group`). -/
def groupFirst (fs : FS) (inum : Nat) : Nat :=
  fs.sb.s_first_data_block + groupNo fs inum * fs.sb.s_blocks_per_group

/-- The partition-relative block holding the inode slot of `inum`
(the block `ext2fs_iupdate` writes). -/
def itRelOf (fs : FS) (itbl inum : Nat) : Nat :=
  itbl + inodeIndex fs inum / (EXT2_BSIZE / fs.sb.s_inode_size)

/-- Bits scanned by `ext2fs_get_free_bit` on the block bitmap. -/
def scanRangeOf (fs : FS) : Nat := scanLimit fs.sb.s_blocks_per_group

/-- Absolute address of the block bitmap. -/
def bitmapAddr (fs : FS) (bbm : Nat) : Nat := bbm + fs.fp

/-- A partition-relative block number that is positive, fits in 32 bits,
and collides with none of the metadata blocks the write path reads or
writes (descriptor table at relative 2, block bitmap, inode-table block). -/
def relSafe (bbm itRel r : Nat) : Prop :=
  1 ≤ r ∧ r < U32 ∧ r ≠ 2 ∧ r ≠ bbm ∧ r ≠ itRel

/-- The map position affected by `bmapTop` on slot `s`. -/
def topPos (s : Nat) : Pos :=
  if s < 12 then .direct s
  else if s = 13 then .dindTop
  else if s = 14 then .tindTop
  else .indTop

/-- The invariant threaded through the write pass: the cached group
descriptor fields match the disk, the triple-indirect slot is unused,
every bitmap-free block is safe to hand out, and every mapped block is
safe, marked used in the bitmap, and mapped at exactly one position. -/
structure WInv (fs : FS) (inum bbm itbl : Nat) (d : Disk) (ad : Addrs) : Prop where
  hipg : 0 < fs.sb.s_inodes_per_group
  hinum : 1 ≤ inum
  hbbm2 : bbm ≠ 2
  hdesc : bgBlockBitmap fs d (groupNo fs inum) = bbm
  hdesct : bgInodeTable fs d (groupNo fs inum) = itbl
  had14 : ad 14 = 0
  hfree : ∀ k, k < scanRangeOf fs → bitFree (d (bitmapAddr fs bbm)) k = true →
    relSafe bbm (itRelOf fs itbl inum) (groupFirst fs inum + k)
  hstruct : ∀ p r, slotVal fs d ad p = some r →
    relSafe bbm (itRelOf fs itbl inum) r ∧
    (groupFirst fs inum ≤ r → r < groupFirst fs inum + scanRangeOf fs →
      bitFree (d (bitmapAddr fs bbm)) (r - groupFirst fs inum) = false)
  hinj : ∀ p q r, slotVal fs d ad p = some r → slotVal fs d ad q = some r → p = q

/-! ### Concrete example volume used by witnesses -/

def sbW : SB := ⟨1, 8, 1, 128, 8⟩

def fsW : FS := ⟨sbW, 0⟩

def dW : Disk := fun bno i => bno + i

def adW : Addrs := fun i => if i = 0 then 5 else 0

/-- Witness volume for the write/read round trip: the descriptor block
(absolute 2) places the block bitmap at relative 3 and the inode table at
relative 4; bitmap block 3 marks blocks 2, 3, 4 in use (byte `0b01110000`);
everything else is zero. -/
def dW2 : Disk := fun bno =>
  if bno = 2 then fun i => if i = 0 then 3 else if i = 8 then 4 else 0
  else if bno = 3 then fun i => if i = 0 then 112 else 0
  else zeroBlock

/-- The bitmap block after the witness allocation of relative block 1. -/
def bmBal : Block := setByte (dW2 3) 0 (byteAt (dW2 3) 0 ||| bitMask 0)

/-- The witness disk after `ext2fs_balloc` hands out relative block 1. -/
def dBal : Disk := writeBlock (writeBlock dW2 3 bmBal) 1 zeroBlock

/-- The witness `addrs` after the write maps file block 0 to block 1. -/
def adC2 : Addrs := setAddr (fun _ => 0) 0 1

/-- The witness disk after the one-byte chunk is written into block 1. -/
def dWr : Disk := writeBlock dBal 1 (setBytes (dBal 1) 0 (fun _ => 65) 0 1)

/-- The witness disk after `ext2fs_iupdate` writes inode 1 back. -/
def dFin : Disk := writeBlock dWr 4 (inodeSlotUpdate (dWr 4) 0 T_FILE 1 1 adC2)

/-! ### Directory entries: the ext2 writer (`ext2fs_dirlink`) and the two
readers (`ext2fs_dirlookup` of ext2.c, `dirlookup` of fs.c)

Strings are byte lists without the terminating NUL; reading past the end
of a list yields 0, matching the NUL terminator (`List.headD`/`getD`). -/

/-- `strncmp` of kernel/string.c, by fuel `n`:
`while (n > 0 && *p && *p == *q) n--, p++, q++; if (n == 0) return 0;
return (u8)*p - (u8)*q;`. -/
def strncmp (p q : List Nat) : Nat → Int
  | 0 => 0
  | n + 1 =>
      if p.headD 0 ≠ 0 ∧ p.headD 0 = q.headD 0 then strncmp p.tail q.tail n
      else (p.headD 0 : Int) - (q.headD 0 : Int)

/-- `namecmp` of fs.c: `strncmp(s, t, DIRSIZ)`. -/
def namecmp (s t : List Nat) : Int := strncmp s t DIRSIZ

/-- `ext2fs_namecmp`: `strncmp(s, t, EXT2_NAME_LEN)`. -/
def ext2fs_namecmp (s t : List Nat) : Int := strncmp s t EXT2_NAME_LEN

/-- `ext2_dirent_size(name_len)`: `(8 + name_len + 3) & ~3` (int mask,
result stored in u16; the operand is far below 2^16). -/
def ext2_dirent_size (nl : Nat) : Nat := (8 + nl + 3) &&& 4294967292

/-- Little-endian byte splits (i386 struct layout). -/
def le16 (v : Nat) : List Nat := [v % 256, v / 256 % 256]

def le32 (v : Nat) : List Nat :=
  [v % 256, v / 256 % 256, v / 65536 % 256, v / 16777216 % 256]

/-- The `rec_len` bytes `ext2fs_dirlink` writes for one entry: the zeroed
`struct ext2_dir_entry_2` with `inode`, `rec_len`, `name_len`, `file_type`
(`EXT2_FT_UNKNOWN`, whose header is not in the tree; the standard ext2
value is 0 and `memset(&de, 0, ...)` zeroes the field anyway) and the
name, padded with zeros to `rec_len`. Layout: `u32 inode` at 0, `u16
rec_len` at 4, `u8 name_len` at 6, `u8 file_type` at 7, name at 8. -/
def ext2DirentBytes (inum : Nat) (name : List Nat) : List Nat :=
  le32 inum ++ le16 (ext2_dirent_size name.length) ++ [name.length % 256, 0] ++
    name ++ List.replicate (ext2_dirent_size name.length - (8 + name.length)) 0

/-- The contents of a fresh directory after `create`'s two dot links
(`ip->iops->dirlink(ip, ".", ip->inum)` then `dirlink(ip, "..", dp->inum)`,
with `iops = &ext2fs_inode_ops`, so `ext2fs_dirlink` appending at
`dp->size`): child inode `c`, parent inode `p`. -/
def dotDirBytes (c p : Nat) : List Nat :=
  ext2DirentBytes c [46] ++ ext2DirentBytes p [46, 46]

/-- Byte `i` of a directory's contents (0 past the end). -/
def byteL (l : List Nat) (i : Nat) : Nat := l.getD i 0

/-- `de.inum` of fs.c's `struct dirent` slot at byte offset `off`
(u16 at offset 0). -/
def legacyDirentInum (l : List Nat) (off : Nat) : Nat :=
  byteL l off + 256 * byteL l (off + 1)

/-- `de.name` of fs.c's `struct dirent` slot at byte offset `off`
(14 bytes at offset 2). -/
def legacyDirentName (l : List Nat) (off : Nat) : List Nat :=
  (List.range DIRSIZ).map (fun i => byteL l (off + 2 + i))

/-- `de.inode` of `struct ext2_dir_entry_2` at byte offset `off`. -/
def ext2entryInode (l : List Nat) (off : Nat) : Nat :=
  byteL l off + 256 * byteL l (off + 1) + 65536 * byteL l (off + 2) +
    16777216 * byteL l (off + 3)

/-- `de.rec_len` of `struct ext2_dir_entry_2` at byte offset `off`. -/
def ext2entryRecLen (l : List Nat) (off : Nat) : Nat :=
  byteL l (off + 4) + 256 * byteL l (off + 5)

/-- `de.name_len` of `struct ext2_dir_entry_2` at byte offset `off`. -/
def ext2entryNameLen (l : List Nat) (off : Nat) : Nat := byteL l (off + 6)

/-- The `file_name` buffer `ext2fs_dirlookup` builds: the first
`min(name_len, EXT2_NAME_LEN)` name bytes. -/
def ext2entryName (l : List Nat) (off : Nat) : List Nat :=
  (List.range (min (ext2entryNameLen l off) EXT2_NAME_LEN)).map
    (fun i => byteL l (off + 8 + i))

/-! ### `ext2fs_ilock` decoding, `create`'s found-entry branch, and
`open_file`'s `O_CREATE` path -/

/-- `S_ISREG(m)` of ext2.h: `((m) & S_IFMT) == S_IFREG`. -/
def S_ISREG (m : Nat) : Bool := (m &&& S_IFMT) == S_IFREG

/-- `S_ISDIR(m)` of ext2.h. -/
def S_ISDIR (m : Nat) : Bool := (m &&& S_IFMT) == S_IFDIR

/-- `S_ISCHR(m)` of ext2.h. -/
def S_ISCHR (m : Nat) : Bool := (m &&& S_IFMT) == S_IFCHR

/-- Byte offset of inode `inum`'s slot inside its inode-table block. -/
def inodeSlotOff (fs : FS) (inum : Nat) : Nat :=
  inodeSlotIdx fs inum * fs.sb.s_inode_size

/-- `din->i_mode` (u16 at offset 0 of the slot). -/
def slotMode (fs : FS) (d : Disk) (inum : Nat) : Nat :=
  read16 (d (inodeBlockno fs d inum)) (inodeSlotOff fs inum)

/-- `din->i_links_count` (u16 at offset 26). -/
def slotNlink (fs : FS) (d : Disk) (inum : Nat) : Nat :=
  read16 (d (inodeBlockno fs d inum)) (inodeSlotOff fs inum + 26)

/-- `din->i_size` (u32 at offset 4). -/
def slotSize (fs : FS) (d : Disk) (inum : Nat) : Nat :=
  read32 (d (inodeBlockno fs d inum)) (inodeSlotOff fs inum + 4)

/-- The type `ext2fs_ilock` assigns from the on-disk mode: directory when
`S_ISDIR(i_mode) || i_mode == T_DIR`, else regular file when `S_ISREG`,
else device when `S_ISCHR`, else the in-core type is left unchanged. -/
def ilockTypeOf (fs : FS) (d : Disk) (oldType inum : Nat) : Nat :=
  let mode := slotMode fs d inum
  if S_ISDIR mode || mode == T_DIR then T_DIR
  else if S_ISREG mode then T_FILE
  else if S_ISCHR mode then T_DEV
  else oldType

/-- The fields `ext2fs_ilock` loads into the in-core inode. -/
structure LockedInode where
  type : Nat
  nlink : Nat
  size : Nat
deriving DecidableEq

/-- Result of `ext2fs_ilock` on a cold (`valid == 0`) inode: `panicked`
covers the "inode too large" and "no type" panics. -/
inductive IlockRes where
  | panicked : IlockRes
  | ok (li : LockedInode) : IlockRes
deriving DecidableEq

/-- `ext2fs_ilock(ip)` on a cold inode: read the group descriptor and the
inode slot, decode mode/nlink/size, panic on an oversized inode or an
undecodable type. It performs no disk write. -/
def ext2fs_ilock (fs : FS) (d : Disk) (oldType inum : Nat) : IlockRes :=
  if EXT2_MAX_INODE_SIZE < fs.sb.s_inode_size then .panicked
  else if ilockTypeOf fs d oldType inum = 0 then .panicked
  else .ok ⟨ilockTypeOf fs d oldType inum, slotNlink fs d inum, slotSize fs d inum⟩

/-- Result of `create` from the branch where `dirlookup` found the name:
`fail` is the `return nullptr` (after `iunlockput` drops the reference),
`ok` returns the locked existing inode. -/
inductive CreateRes where
  | panicked : CreateRes
  | fail : CreateRes
  | ok (li : LockedInode) : CreateRes
deriving DecidableEq

/-- `create`'s found-entry branch, from sysfile.c:
`iunlockput(dp); ilock(ip); if (type == T_FILE && ip->type == T_FILE)
return ip; iunlockput(ip); return nullptr;` — on an inode that was cold in
the cache (type `oldType`, normally 0 until some ilock ran). Nothing in
the branch writes the disk or the inode slot. -/
def create_found (fs : FS) (d : Disk) (typeArg oldType inum : Nat) : CreateRes :=
  match ext2fs_ilock fs d oldType inum with
  | .panicked => .panicked
  | .ok li => if typeArg = T_FILE ∧ li.type = T_FILE then .ok li else .fail

/-- Result of `open_file`: `err` is the `-1` return. -/
inductive OpenRes where
  | err : OpenRes
  | panicked : OpenRes
  | ok (fd : Nat) (li : LockedInode) : OpenRes
deriving DecidableEq

/-- The `omode & O_CREATE` path of `open_file` from the point where
`create`'s `dirlookup` found existing inode `inum`: a null from `create`
returns `-1`; otherwise `filealloc`/`fdalloc` (modelled by the success
flags and the allocated descriptor `fd`) and the file is set up on the
inode — with no truncation anywhere on the path. -/
def open_file_create (fs : FS) (d : Disk) (oldType inum : Nat)
    (fileok fdok : Bool) (fd : Nat) : OpenRes :=
  match create_found fs d T_FILE oldType inum with
  | .panicked => .panicked
  | .fail => .err
  | .ok li => if fileok && fdok then .ok fd li else .err

/-- Witness disk for C10 (regular file): inode table at relative 4, inode
1's slot holds mode `S_IFREG`, size 10, nlink 1. -/
def dC10f : Disk := fun bno =>
  if bno = 2 then fun i => if i = 8 then 4 else 0
  else if bno = 4 then fun i =>
    if i = 1 then 128 else if i = 4 then 10 else if i = 26 then 1 else 0
  else zeroBlock

/-- Witness disk for C10 (directory): inode 1's slot holds mode `S_IFDIR`. -/
def dC10d : Disk := fun bno =>
  if bno = 2 then fun i => if i = 8 then 4 else 0
  else if bno = 4 then fun i => if i = 1 then 64 else 0
  else zeroBlock

/-! ## Theorems -/

/-! ### Bit-level helper lemmas -/

theorem byteAt_lt (b : Block) (i : Nat) : byteAt b i < 256 :=
  Nat.mod_lt _ (by norm_num)

theorem land_two_pow_eq_zero_iff (x t : Nat) :
    (x &&& 2 ^ t = 0) ↔ x.testBit t = false := by
  constructor
  · intro h
    have := Nat.testBit_land x (2 ^ t) t
    rw [h] at this
    simpa [Nat.testBit_two_pow_self] using this.symm
  · intro h
    apply Nat.eq_of_testBit_eq
    intro k
    rw [Nat.testBit_land, Nat.zero_testBit]
    rcases eq_or_ne k t with rfl | hk
    · simp [h]
    · simp [Nat.testBit_two_pow, hk.symm]

theorem bitFree_eq_testBit (bm : Block) (k : Nat) :
    bitFree bm k = ! (byteAt bm (k / 8)).testBit (7 - k % 8) := by
  rcases h : (byteAt bm (k / 8)).testBit (7 - k % 8) with hf | ht
  · simp only [bitFree, bitMask, Bool.not_false, beq_iff_eq]
    exact (land_two_pow_eq_zero_iff _ _).2 h
  · simp only [bitFree, bitMask, Bool.not_true, beq_eq_false_iff_ne, ne_eq]
    intro hc
    rw [(land_two_pow_eq_zero_iff _ _).1 hc] at h
    exact Bool.false_ne_true h

theorem testBit_255 (u : Nat) : (255 : Nat).testBit u = decide (u < 8) := by
  rw [show (255 : Nat) = 2 ^ 8 - 1 by norm_num, Nat.testBit_two_pow_sub_one]

/-- Clearing bit `7 - j` of a byte with `x &&& (255 ^^^ 2^(7-j))`. -/
theorem testBit_clear_bit (x t u : Nat) (ht : t < 8) (hx : x < 256) :
    (x &&& (255 ^^^ 2 ^ t)).testBit u = if u = t then false else x.testBit u := by
  rw [Nat.testBit_land, Nat.testBit_xor, testBit_255]
  rcases eq_or_ne u t with rfl | hu
  · rw [if_pos rfl, Nat.testBit_two_pow_self, decide_eq_true ht]
    simp
  · rw [if_neg hu, Nat.testBit_two_pow_of_ne (Ne.symm hu)]
    rcases lt_or_le u 8 with h8 | h8
    · rw [decide_eq_true h8]
      simp
    · have hxu : x.testBit u = false := Nat.testBit_lt_two_pow (lt_of_lt_of_le hx (by
        calc (256 : Nat) = 2 ^ 8 := by norm_num
        _ ≤ 2 ^ u := Nat.pow_le_pow_right (by norm_num) h8))
      rw [hxu, decide_eq_false (by omega)]
      simp

/-- Setting bit `7 - j` of a byte with `x ||| 2^(7-j)`. -/
theorem testBit_set_bit (x t u : Nat) :
    (x ||| 2 ^ t).testBit u = if u = t then true else x.testBit u := by
  rw [Nat.testBit_lor]
  rcases eq_or_ne u t with rfl | hu
  · rw [if_pos rfl, Nat.testBit_two_pow_self, Bool.or_true]
  · rw [if_neg hu, Nat.testBit_two_pow_of_ne (Ne.symm hu), Bool.or_false]

theorem setByte_at (b : Block) (i v : Nat) : setByte b i v i = v := by
  simp [setByte]

theorem setByte_ne (b : Block) (i v k : Nat) (h : k ≠ i) : setByte b i v k = b k := by
  simp [setByte, h]

theorem writeBlock_at (d : Disk) (bno : Nat) (b : Block) : writeBlock d bno b bno = b := by
  simp [writeBlock]

theorem writeBlock_ne (d : Disk) (bno : Nat) (b : Block) (k : Nat) (h : k ≠ bno) :
    writeBlock d bno b k = d k := by
  simp [writeBlock, h]

/-- Two distinct bit indices with the same byte index have distinct masks. -/
theorem bit_byte_cases {k k' : Nat} (h : k ≠ k') (hb : k / 8 = k' / 8) :
    7 - k % 8 ≠ 7 - k' % 8 := by
  have h8 : k % 8 < 8 := Nat.mod_lt _ (by norm_num)
  have h8' : k' % 8 < 8 := Nat.mod_lt _ (by norm_num)
  intro hc
  apply h
  have : k % 8 = k' % 8 := by omega
  omega

/-! ### C6: `ext2fs_bfree` double-free guard -/

/-- C6: for a partition-relative block `b` in range of the bitmap, if the
block's bitmap bit is already clear, `ext2fs_bfree` halts with the
"block already free" diagnostic without modifying anything; if the bit is
set, it writes back the bitmap block with exactly that bit cleared and
every other block and bitmap bit unchanged. -/
theorem c6_bfree_double_free_guard (fs : FS) (d : Disk) (b : Nat)
    (hb : fs.sb.s_first_data_block ≤ b)
    (hby : (b - fs.sb.s_first_data_block) % fs.sb.s_blocks_per_group / 8 < 1024) :
    (bitFree (d (bgBlockBitmap fs d
        ((b - fs.sb.s_first_data_block) / fs.sb.s_blocks_per_group) + fs.fp))
        ((b - fs.sb.s_first_data_block) % fs.sb.s_blocks_per_group) = true →
      ext2fs_bfree fs d b = .alreadyFree) ∧
    (bitFree (d (bgBlockBitmap fs d
        ((b - fs.sb.s_first_data_block) / fs.sb.s_blocks_per_group) + fs.fp))
        ((b - fs.sb.s_first_data_block) % fs.sb.s_blocks_per_group) = false →
      ∃ d', ext2fs_bfree fs d b = .ok d' ∧
        (∀ a, a ≠ bgBlockBitmap fs d
            ((b - fs.sb.s_first_data_block) / fs.sb.s_blocks_per_group) + fs.fp →
          d' a = d a) ∧
        (∀ k, bitFree (d' (bgBlockBitmap fs d
              ((b - fs.sb.s_first_data_block) / fs.sb.s_blocks_per_group) + fs.fp)) k =
          if k = (b - fs.sb.s_first_data_block) % fs.sb.s_blocks_per_group then true
          else bitFree (d (bgBlockBitmap fs d
            ((b - fs.sb.s_first_data_block) / fs.sb.s_blocks_per_group) + fs.fp)) k)) := by
  set bi := b - fs.sb.s_first_data_block with hbi
  set gno := bi / fs.sb.s_blocks_per_group with hgno
  set offs := bi % fs.sb.s_blocks_per_group with hoffs
  set bbm := bgBlockBitmap fs d gno with hbbm
  set bm := d (bbm + fs.fp) with hbm
  constructor
  · intro hfree
    have hz : byteAt bm (offs / 8) &&& bitMask (offs % 8) = 0 := by
      simpa [bitFree] using hfree
    simp only [ext2fs_bfree, if_neg (not_lt.2 hb), if_neg (not_le.2 hby)]
    rw [← hbi, ← hgno, ← hoffs, ← hbbm, ← hbm]
    simp [hz]
  · intro hset
    have hz : ¬ (byteAt bm (offs / 8) &&& bitMask (offs % 8) = 0) := by
      simpa [bitFree] using hset
    refine ⟨writeBlock d (bbm + fs.fp)
      (setByte bm (offs / 8) (byteAt bm (offs / 8) &&& (255 ^^^ bitMask (offs % 8)))),
      ?_, ?_, ?_⟩
    · simp only [ext2fs_bfree, if_neg (not_lt.2 hb), if_neg (not_le.2 hby)]
      rw [← hbi, ← hgno, ← hoffs, ← hbbm, ← hbm]
      simp [hz]
    · intro a ha
      exact writeBlock_ne _ _ _ _ ha
    · intro k
      rw [writeBlock_at]
      have h8 : offs % 8 < 8 := Nat.mod_lt _ (by norm_num)
      have hlt : byteAt bm (offs / 8) &&& (255 ^^^ bitMask (offs % 8)) < 256 :=
        lt_of_le_of_lt Nat.and_le_left (byteAt_lt _ _)
      rcases eq_or_ne k offs with rfl | hk
      · rw [if_pos rfl, bitFree_eq_testBit, byteAt, setByte_at, Nat.mod_eq_of_lt hlt,
          bitMask, testBit_clear_bit _ _ _ (by omega) (byteAt_lt _ _)]
        simp
      · rw [if_neg hk]
        rcases eq_or_ne (k / 8) (offs / 8) with hsame | hdiff
        · rw [bitFree_eq_testBit, bitFree_eq_testBit, byteAt, hsame, setByte_at,
            Nat.mod_eq_of_lt hlt, bitMask,
            testBit_clear_bit _ _ _ (by omega) (byteAt_lt _ _),
            if_neg (bit_byte_cases hk hsame)]
        · rw [bitFree_eq_testBit, bitFree_eq_testBit, byteAt, byteAt,
            setByte_ne _ _ _ _ hdiff]
          rfl

/-- Witness for C6 at a concrete bitmap: bit 5 clear triggers the
"already free" diagnostic, and freeing bit-set block 3 clears exactly
its bit. -/
theorem c6_witness :
    ext2fs_bfree ⟨⟨1, 8, 1, 128, 8⟩, 0⟩
      (fun bno => if bno = 2 then (fun i => if i = 0 then 3 else 0)
        else if bno = 3 then (fun i => if i = 0 then 112 else 0) else zeroBlock)
      6 = .alreadyFree := by
  have h := (c6_bfree_double_free_guard ⟨⟨1, 8, 1, 128, 8⟩, 0⟩
    (fun bno => if bno = 2 then (fun i => if i = 0 then 3 else 0)
      else if bno = 3 then (fun i => if i = 0 then 112 else 0) else zeroBlock)
    6 (by norm_num) (by norm_num)).1
  apply h
  decide

/-! ### Reading an already-mapped block map -/

theorem slotTop_inv {ad : Addrs} {s r : Nat} (h : slotTop ad s = some r) :
    ad s = r ∧ r ≠ 0 := by
  unfold slotTop at h
  by_cases hz : ad s = 0
  · rw [if_pos hz] at h
    cases h
  · rw [if_neg hz] at h
    injection h with h'
    exact ⟨h', h' ▸ hz⟩

theorem entryOf_inv {fs : FS} {d : Disk} {r j e : Nat} (h : entryOf fs d r j = some e) :
    read32idx (d (fs.fp + r)) j = e ∧ e ≠ 0 := by
  unfold entryOf at h
  by_cases hz : read32idx (d (fs.fp + r)) j = 0
  · rw [if_pos hz] at h
    cases h
  · rw [if_neg hz] at h
    injection h with h'
    exact ⟨h', h' ▸ hz⟩

theorem EXT2_INDIRECT_val : EXT2_INDIRECT = 256 := rfl

theorem EXT2_DINDIRECT_val : EXT2_DINDIRECT = 65536 := rfl

theorem EXT2_TINDIRECT_val : EXT2_TINDIRECT = 16777216 := rfl

theorem EXT2_MAXFILE_val : EXT2_MAXFILE = 16843020 := rfl

theorem slotTop_eq {ad : Addrs} {s : Nat} (hz : ad s ≠ 0) : slotTop ad s = some (ad s) := by
  simp [slotTop, hz]

theorem entryOf_eq {fs : FS} {d : Disk} {r j : Nat}
    (hz : read32idx (d (fs.fp + r)) j ≠ 0) :
    entryOf fs d r j = some (read32idx (d (fs.fp + r)) j) := by
  simp [entryOf, hz]

theorem bmapTop_of_ne (fs : FS) (d : Disk) (ad : Addrs) (inum s : Nat)
    (h : ad s ≠ 0) : bmapTop fs d ad inum s = some (ad s, d, ad) := by
  simp [bmapTop, h]

theorem bmapIndirect_of_ne (fs : FS) (d : Disk) (inum a j : Nat)
    (h : read32idx (d a) j ≠ 0) :
    bmapIndirect fs d inum a j = some (read32idx (d a) j, d) := by
  simp [bmapIndirect, h]

/-- When file block `bn` is already mapped, `ext2fs_bmap` is a pure lookup:
it returns the mapped block (partition-start adjusted) and changes nothing. -/
theorem bmap_readonly (fs : FS) (d : Disk) (ad : Addrs) (inum bn r : Nat)
    (h : slotVal fs d ad (dataPos bn) = some r) :
    ext2fs_bmap fs d ad inum bn = some (r + fs.fp, d, ad) := by
  unfold dataPos at h
  split_ifs at h with h1 h2 h3
  · -- direct
    simp only [slotVal, if_pos h1] at h
    obtain ⟨he, hz⟩ := slotTop_inv h
    rw [ext2fs_bmap, if_pos (show bn < EXT2_NDIR_BLOCKS from h1),
      bmapTop_of_ne fs d ad inum bn (he ▸ hz), he]
  · -- single indirect
    simp only [slotVal] at h
    rw [if_pos (by omega : bn - 12 < 256)] at h
    rw [Option.bind_eq_some] at h
    obtain ⟨a, ha, hent⟩ := h
    obtain ⟨ha12, ha0⟩ := slotTop_inv ha
    obtain ⟨hread, hr0⟩ := entryOf_inv hent
    have h12 : ad 12 ≠ 0 := ha12 ▸ ha0
    have hLne : read32idx (d (fs.fp + a)) (bn - 12) ≠ 0 := hread ▸ hr0
    rw [ext2fs_bmap]
    simp only [EXT2_NDIR_BLOCKS, EXT2_INDIRECT_val, EXT2_IND_BLOCK]
    rw [if_neg h1, if_pos (by omega : bn - 12 < 256)]
    simp only [bmapTop_of_ne fs d ad inum 12 h12, ha12,
      bmapIndirect_of_ne fs d inum (fs.fp + a) (bn - 12) hLne, hread]
  · -- double indirect
    simp only [slotVal] at h
    rw [if_pos (by constructor <;> omega :
      (bn - 268) / 256 < 256 ∧ (bn - 268) % 256 < 256)] at h
    rw [Option.bind_eq_some] at h
    obtain ⟨a, ha, h⟩ := h
    rw [Option.bind_eq_some] at h
    obtain ⟨m, hm, hent⟩ := h
    obtain ⟨ha13, ha0⟩ := slotTop_inv ha
    obtain ⟨hmid, hm0⟩ := entryOf_inv hm
    obtain ⟨hleaf, hr0⟩ := entryOf_inv hent
    have h13 : ad 13 ≠ 0 := ha13 ▸ ha0
    have hMne : read32idx (d (fs.fp + a)) ((bn - 268) / 256) ≠ 0 := hmid ▸ hm0
    have hLne : read32idx (d (fs.fp + m)) ((bn - 268) % 256) ≠ 0 := hleaf ▸ hr0
    rw [ext2fs_bmap]
    simp only [EXT2_NDIR_BLOCKS, EXT2_INDIRECT_val, EXT2_DINDIRECT_val,
      EXT2_IND_BLOCK, EXT2_DIND_BLOCK]
    rw [if_neg h1, if_neg (by omega : ¬ (bn - 12 < 256)),
      if_pos (by omega : bn - 12 - 256 < 65536),
      (by omega : bn - 12 - 256 = bn - 268)]
    simp only [bmapTop_of_ne fs d ad inum 13 h13, ha13,
      bmapIndirect_of_ne fs d inum (fs.fp + a) ((bn - 268) / 256) hMne, hmid,
      bmapIndirect_of_ne fs d inum (fs.fp + m) ((bn - 268) % 256) hLne, hleaf]
  · -- triple indirect
    simp only [slotVal] at h
    by_cases hj : (bn - 65804) / 65536 < 256
    swap
    · rw [if_neg (by intro hc; exact hj hc.1)] at h
      cases h
    rw [if_pos ⟨hj, by omega, by omega⟩] at h
    rw [Option.bind_eq_some] at h
    obtain ⟨a, ha, h⟩ := h
    rw [Option.bind_eq_some] at h
    obtain ⟨m, hm, h⟩ := h
    rw [Option.bind_eq_some] at h
    obtain ⟨m2, hm2, hent⟩ := h
    obtain ⟨ha14, ha0⟩ := slotTop_inv ha
    obtain ⟨hmid, hm0⟩ := entryOf_inv hm
    obtain ⟨hmid2, hm20⟩ := entryOf_inv hm2
    obtain ⟨hleaf, hr0⟩ := entryOf_inv hent
    have h14 : ad 14 ≠ 0 := ha14 ▸ ha0
    have hM1 : read32idx (d (fs.fp + a)) ((bn - 65804) / 65536) ≠ 0 := hmid ▸ hm0
    have hM2 : read32idx (d (fs.fp + m)) ((bn - 65804) % 65536 / 256) ≠ 0 :=
      hmid2 ▸ hm20
    have hLne : read32idx (d (fs.fp + m2)) ((bn - 65804) % 65536 % 256) ≠ 0 :=
      hleaf ▸ hr0
    rw [ext2fs_bmap]
    simp only [EXT2_NDIR_BLOCKS, EXT2_INDIRECT_val, EXT2_DINDIRECT_val,
      EXT2_TINDIRECT_val, EXT2_IND_BLOCK, EXT2_DIND_BLOCK, EXT2_TIND_BLOCK]
    rw [if_neg h1, if_neg (by omega : ¬ (bn - 12 < 256)),
      if_neg (by omega : ¬ (bn - 12 - 256 < 65536)),
      if_pos (by omega : bn - 12 - 256 - 65536 < 16777216),
      (by omega : bn - 12 - 256 - 65536 = bn - 65804)]
    simp only [bmapTop_of_ne fs d ad inum 14 h14, ha14,
      bmapIndirect_of_ne fs d inum (fs.fp + a) ((bn - 65804) / 65536) hM1, hmid,
      bmapIndirect_of_ne fs d inum (fs.fp + m) ((bn - 65804) % 65536 / 256) hM2, hmid2,
      bmapIndirect_of_ne fs d inum (fs.fp + m2) ((bn - 65804) % 65536 % 256) hLne,
      hleaf]

/-- Splitting a byte offset inside one block. -/
theorem div_mod_chunk (off i k : Nat) (hk : 0 < k) (h : off % k + i < k) :
    (off + i) / k = off / k ∧ (off + i) % k = off % k + i := by
  constructor
  · conv_lhs => rw [← Nat.div_add_mod off k, Nat.add_assoc]
    rw [Nat.mul_add_div hk, Nat.div_eq_of_lt h, Nat.add_zero]
  · conv_lhs => rw [← Nat.div_add_mod off k, Nat.add_assoc]
    rw [Nat.mul_add_mod, Nat.mod_eq_of_lt h]

/-- The read loop over an already-mapped range is pure: it returns exactly
the mapped bytes and leaves disk and `addrs` unchanged. -/
theorem readLoop_pure (fs : FS) (d : Disk) (ad : Addrs) (inum : Nat) :
    ∀ rem off, (∀ i < rem,
      (slotVal fs d ad (dataPos ((off + i) / EXT2_BSIZE))).isSome) →
    readLoop fs d ad inum off rem =
      some ((List.range rem).map (fun i => fileByteD fs d ad (off + i)), d, ad) := by
  intro rem
  induction rem using Nat.strong_induction_on with
  | _ rem ih =>
    intro off H
    rw [readLoop]
    rcases eq_or_ne rem 0 with rfl | hrem
    · simp
    · rw [dif_neg hrem]
      have h0 := H 0 (Nat.pos_of_ne_zero hrem)
      rw [Nat.add_zero] at h0
      obtain ⟨r, hr⟩ := Option.isSome_iff_exists.1 h0
      rw [bmap_readonly fs d ad inum (off / EXT2_BSIZE) r hr]
      have hbs : (0 : Nat) < EXT2_BSIZE := by norm_num [EXT2_BSIZE]
      have hmod : off % EXT2_BSIZE < EXT2_BSIZE := Nat.mod_lt _ hbs
      set m := min rem (EXT2_BSIZE - off % EXT2_BSIZE) with hm
      have hm1 : 0 < m := lt_min (Nat.pos_of_ne_zero hrem) (by omega)
      have hmle : m ≤ rem := min_le_left _ _
      have hmb : off % EXT2_BSIZE + m ≤ EXT2_BSIZE := by
        have := min_le_right rem (EXT2_BSIZE - off % EXT2_BSIZE)
        omega
      have htail := ih (rem - m) (by omega) (off + m) (by
        intro i hi
        have := H (m + i) (by omega)
        rw [← Nat.add_assoc] at this
        exact this)
      simp only [htail]
      have hA : List.map (fun i => byteAt (d (r + fs.fp)) (off % EXT2_BSIZE + i))
          (List.range m) =
          List.map (fun i => fileByteD fs d ad (off + i)) (List.range m) := by
        apply List.map_congr_left
        intro i hi
        rw [List.mem_range] at hi
        have hdm := div_mod_chunk off i EXT2_BSIZE hbs (by omega)
        rw [fileByteD, hdm.1, hdm.2, hr]
      have hB : List.map (fun i => fileByteD fs d ad (off + m + i))
          (List.range (rem - m)) =
          List.map (fun i => fileByteD fs d ad (off + (m + i)))
            (List.range (rem - m)) := by
        apply List.map_congr_left
        intro i _
        rw [Nat.add_assoc]
      rw [hA, hB]
      conv_rhs =>
        rw [show rem = m + (rem - m) from by omega, List.range_add,
          List.map_append, List.map_map]
      simp only [Function.comp_def]

/-! ### C4: four-level addressing in `ext2fs_bmap` -/

/-- C4: `ext2fs_bmap(ip, n)` uses four-level addressing with 256 entries per
indirect block: for `n < 12` it returns the direct entry (allocating when
the entry is zero); for `n − 12 < 256` it walks the single indirect block;
for `r = n − 12 − 256 < 65536` it walks the double indirect block with
first index `r / 256` and second index `r mod 256`; for larger `n` within
16777216 triple-indirect blocks it walks three levels analogously; and for
`n` at or beyond `12 + 256 + 65536 + 16777216` it panics. -/
theorem c4_bmap_four_level (fs : FS) (d : Disk) (ad : Addrs) (inum bn : Nat) :
    (bn < 12 → ad bn ≠ 0 →
      ext2fs_bmap fs d ad inum bn = some (ad bn + fs.fp, d, ad)) ∧
    (bn < 12 → ad bn = 0 → ∀ r d', ext2fs_balloc fs d inum = some (r, d') →
      ext2fs_bmap fs d ad inum bn = some (r + fs.fp, d', setAddr ad bn r)) ∧
    (12 ≤ bn → bn - 12 < 256 → ad 12 ≠ 0 →
      read32idx (d (fs.fp + ad 12)) (bn - 12) ≠ 0 →
      ext2fs_bmap fs d ad inum bn =
        some (read32idx (d (fs.fp + ad 12)) (bn - 12) + fs.fp, d, ad)) ∧
    (∀ r, r = bn - 12 - 256 → 268 ≤ bn → r < 65536 → ad 13 ≠ 0 →
      read32idx (d (fs.fp + ad 13)) (r / 256) ≠ 0 →
      read32idx (d (fs.fp + read32idx (d (fs.fp + ad 13)) (r / 256))) (r % 256) ≠ 0 →
      ext2fs_bmap fs d ad inum bn =
        some (read32idx (d (fs.fp + read32idx (d (fs.fp + ad 13)) (r / 256)))
          (r % 256) + fs.fp, d, ad)) ∧
    (∀ r, r = bn - 12 - 256 - 65536 → 65804 ≤ bn → r < 16777216 → ad 14 ≠ 0 →
      read32idx (d (fs.fp + ad 14)) (r / 65536) ≠ 0 →
      read32idx (d (fs.fp + read32idx (d (fs.fp + ad 14)) (r / 65536)))
        (r % 65536 / 256) ≠ 0 →
      read32idx (d (fs.fp + read32idx (d (fs.fp + read32idx (d (fs.fp + ad 14))
        (r / 65536))) (r % 65536 / 256))) (r % 65536 % 256) ≠ 0 →
      ext2fs_bmap fs d ad inum bn =
        some (read32idx (d (fs.fp + read32idx (d (fs.fp + read32idx (d (fs.fp + ad 14))
          (r / 65536))) (r % 65536 / 256))) (r % 65536 % 256) + fs.fp, d, ad)) ∧
    (12 + 256 + 65536 + 16777216 ≤ bn → ext2fs_bmap fs d ad inum bn = none) := by
  refine ⟨?_, ?_, ?_, ?_, ?_, ?_⟩
  · intro h1 hz
    exact bmap_readonly fs d ad inum bn (ad bn) (by
      rw [dataPos, if_pos h1]
      simp only [slotVal, if_pos h1]
      exact slotTop_eq hz)
  · intro h1 hz r d' hb
    rw [ext2fs_bmap, if_pos (show bn < EXT2_NDIR_BLOCKS from h1)]
    simp only [bmapTop, if_pos hz, hb]
  · intro h12 h256 hz hent
    have hd : dataPos bn = .indLeaf (bn - 12) := by
      rw [dataPos, if_neg (by omega), if_pos (by omega)]
    apply bmap_readonly
    rw [hd]
    simp only [slotVal]
    rw [if_pos h256, slotTop_eq hz, Option.some_bind, entryOf_eq hent]
  · intro r hr h268 hr2 hz13 hmid hleaf
    have hrr : r = bn - 268 := by omega
    have hd : dataPos bn = .dindLeaf ((bn - 268) / 256) ((bn - 268) % 256) := by
      rw [dataPos, if_neg (by omega), if_neg (by omega), if_pos (by omega)]
    apply bmap_readonly
    rw [hd, ← hrr]
    simp only [slotVal]
    rw [if_pos ⟨by omega, Nat.mod_lt _ (by norm_num)⟩, slotTop_eq hz13,
      Option.some_bind, entryOf_eq hmid, Option.some_bind, entryOf_eq hleaf]
  · intro r hr h65804 hr2 hz14 hm1 hm2 hleaf
    have hrr : r = bn - 65804 := by omega
    have hd : dataPos bn = .tindLeaf ((bn - 65804) / 65536)
        ((bn - 65804) % 65536 / 256) ((bn - 65804) % 65536 % 256) := by
      rw [dataPos, if_neg (by omega), if_neg (by omega), if_neg (by omega)]
    apply bmap_readonly
    rw [hd, ← hrr]
    simp only [slotVal]
    rw [if_pos ⟨by omega, by
        have := Nat.mod_lt r (show 0 < 65536 by norm_num)
        omega, Nat.mod_lt _ (by norm_num)⟩,
      slotTop_eq hz14, Option.some_bind, entryOf_eq hm1, Option.some_bind,
      entryOf_eq hm2, Option.some_bind, entryOf_eq hleaf]
  · intro hout
    rw [ext2fs_bmap]
    simp only [EXT2_NDIR_BLOCKS, EXT2_INDIRECT_val, EXT2_DINDIRECT_val,
      EXT2_TINDIRECT_val]
    rw [if_neg (by omega), if_neg (by omega), if_neg (by omega), if_neg (by omega)]

/-- Witness for C4 on the example volume: direct slot 0 holds block 5. -/
theorem c4_witness :
    ext2fs_bmap fsW dW adW 1 0 = some (5, dW, adW) ∧ (0 : Nat) < 12 := by
  refine ⟨?_, by norm_num⟩
  have h := (c4_bmap_four_level fsW dW adW 1 0).1 (by norm_num) (by decide)
  exact h.trans (by rfl)

/-- C1, counterexample: for a regular-file inode with `size = 2^32 - 1`,
reading `n = 1` byte at `off = size` returns `-1` (the `off + n < off`
32-bit wrap check fires), not the 0 the claim requires for
`off = size`, `n > 0`. -/
theorem c1_counterexample :
    ext2fs_readi ⟨⟨1, 8, 1, 128, 8⟩, 0⟩ (fun _ => zeroBlock) (fun _ => 0)
      T_FILE (U32 - 1) 1 (U32 - 1) 1 = .err := by
  have h1 : ((U32 - 1 + 1) % U32 < U32 - 1) := by norm_num [U32]
  simp [ext2fs_readi, T_FILE, T_DEV, h1]

/-- C1 (amended): for a non-device inode, provided the 32-bit sum `off + n`
does not wrap, `ext2fs_readi` returns 0 (copying nothing) when
`off = ip.size`, and when `off < ip.size` and every touched file block is
already mapped it returns `min n (ip.size − off)` and copies exactly that
many bytes of the file's contents starting at byte `off`. -/
theorem c1_readi_clamp (fs : FS) (d : Disk) (ad : Addrs) (typ size inum off n : Nat)
    (htyp : typ ≠ T_DEV) (hwrap : off + n < U32) :
    (off = size → ext2fs_readi fs d ad typ size inum off n = .ok 0 [] d ad) ∧
    (off < size →
      (∀ i < min n (size - off),
        (slotVal fs d ad (dataPos ((off + i) / EXT2_BSIZE))).isSome) →
      ext2fs_readi fs d ad typ size inum off n =
        .ok (min n (size - off))
          ((List.range (min n (size - off))).map (fun i => fileByteD fs d ad (off + i)))
          d ad) := by
  have hmod : (off + n) % U32 = off + n := Nat.mod_eq_of_lt hwrap
  constructor
  · intro heq
    rw [ext2fs_readi, if_neg htyp, if_neg (by omega)]
    have hn1 : (if size < (off + n) % U32 then size - off else n) = 0 := by
      rw [hmod]
      split_ifs <;> omega
    have hz : readLoop fs d ad inum off 0 = some ([], d, ad) := by
      rw [readLoop]
      simp
    simp only [hn1, hz]
  · intro hlt hmap
    rw [ext2fs_readi, if_neg htyp, if_neg (by omega)]
    have hn1 : (if size < (off + n) % U32 then size - off else n) =
        min n (size - off) := by
      rw [hmod]
      split_ifs <;> omega
    simp only [hn1, readLoop_pure fs d ad inum (min n (size - off)) off hmap]

/-- Witness for C1 on the example volume: a 4-byte read at offset 2 of a
10-byte file mapped at block 5 returns bytes 7..10 of that block. -/
theorem c1_witness :
    ext2fs_readi fsW dW adW T_FILE 10 1 2 4 = .ok 4 [7, 8, 9, 10] dW adW ∧
    (2 : Nat) < 10 := by
  refine ⟨?_, by norm_num⟩
  have h := (c1_readi_clamp fsW dW adW T_FILE 10 1 2 4 (by decide)
    (by norm_num [U32])).2 (by norm_num) (by decide)
  exact h.trans (by rfl)

/-! ### C3: the `writei` size limit wraps modulo 2^32 -/

/-- C3, counterexample: the claim says a write of `n` bytes at `off = 0`
with `off + n` below the triple-indirect limit (about 17 GiB) succeeds,
but the C comparison constant `EXT2_MAXFILE * EXT2_BSIZE` is computed in
32-bit arithmetic and equals 67,383,296 (the double-indirect boundary),
so `n = 67,383,297` already fails with `-1`. -/
theorem c3_counterexample :
    ext2fs_writei ⟨⟨1, 8, 1, 128, 8⟩, 0⟩ (fun _ => zeroBlock) (fun _ => 0)
      T_FILE 1 0 1 0 67383297 (fun _ => 0) = .err ∧
    67383297 < (12 + 256 + 65536 + 16777216) * (1024 : Nat) := by
  constructor
  · have h1 : ¬ ((0 : Nat) < 0 ∨ (0 + 67383297) % U32 < 0) := by norm_num
    have h2 : EXT2_MAXFILE * EXT2_BSIZE % U32 < (0 + 67383297) % U32 := by
      norm_num [EXT2_MAXFILE, EXT2_BSIZE, EXT2_NDIR_BLOCKS, EXT2_INDIRECT,
        EXT2_DINDIRECT, EXT2_TINDIRECT, U32]
    simp [ext2fs_writei, T_FILE, T_DEV, h1, h2]
  · norm_num

/-- C3 (amended): for a non-device inode, `ext2fs_writei` returns `-1`
exactly when `off > ip.size` or `off + n > 67,383,296`, the value of
`(12 + 256 + 65536 + 16777216) * 1024` reduced modulo 2^32 (equivalently,
the double-indirect boundary `(12 + 256 + 65536) * 1024` — the
triple-indirect term is a multiple of 2^32 and vanishes); in every other
case the call never reports an error, and if it returns (rather than
panicking in the allocator) it writes all `n` bytes, returns `n`, and
extends the size to `off + n` when the write went past the old size. -/
theorem c3_writei_limit (fs : FS) (d : Disk) (ad : Addrs)
    (typ nlink size inum off n : Nat) (src : Nat → Nat)
    (htyp : typ ≠ T_DEV) (hoff : off < U32) (hn : n < U32) :
    (size < off ∨ 67383296 < off + n →
      ext2fs_writei fs d ad typ nlink size inum off n src = .err) ∧
    (off ≤ size → off + n ≤ 67383296 →
      ext2fs_writei fs d ad typ nlink size inum off n src ≠ .err ∧
      ext2fs_writei fs d ad typ nlink size inum off n src ≠ .device ∧
      (∀ r d' ad' sz',
        ext2fs_writei fs d ad typ nlink size inum off n src = .ok r d' ad' sz' →
        r = n ∧ sz' = if 0 < n ∧ size < off + n then off + n else size)) := by
  have hconst : EXT2_MAXFILE * EXT2_BSIZE % U32 = 67383296 := by
    norm_num [EXT2_MAXFILE, EXT2_BSIZE, EXT2_NDIR_BLOCKS, EXT2_INDIRECT,
      EXT2_DINDIRECT, EXT2_TINDIRECT, U32]
  constructor
  · intro hbad
    rcases lt_or_le size off with hso | hso
    · rw [ext2fs_writei, if_neg htyp, if_pos (Or.inl hso)]
    · have hlim : 67383296 < off + n := by omega
      rcases lt_or_le (off + n) U32 with hlo | hhi
      · rw [ext2fs_writei, if_neg htyp,
          if_neg (by rw [Nat.mod_eq_of_lt hlo]; omega),
          if_pos (by rw [Nat.mod_eq_of_lt hlo, hconst]; omega)]
      · have hU : U32 = 4294967296 := rfl
        have hsub : (off + n) % U32 = off + n - U32 := by
          rw [Nat.mod_eq_sub_mod hhi]
          exact Nat.mod_eq_of_lt (by omega)
        rw [ext2fs_writei, if_neg htyp, if_pos (Or.inr (by rw [hsub]; omega))]
  · intro h1 h2
    have hU : U32 = 4294967296 := rfl
    have hlo : off + n < U32 := by omega
    rw [ext2fs_writei, if_neg htyp, if_neg (by rw [Nat.mod_eq_of_lt hlo]; omega),
      if_neg (by rw [Nat.mod_eq_of_lt hlo, hconst]; omega)]
    rcases hw : writeLoop fs d ad inum off n src 0 with _ | ⟨d1, ad1⟩
    · simp only [hw]
      exact ⟨by simp, by simp, by intro r d' ad' sz' hc; cases hc⟩
    · simp only [hw]
      by_cases hup : 0 < n ∧ size < off + n
      · rw [if_pos hup]
        rcases hu : ext2fs_iupdate fs d1 ad1 typ nlink (off + n) inum with _ | d2
        · simp only [hu]
          exact ⟨by simp, by simp, by intro r d' ad' sz' hc; cases hc⟩
        · simp only [hu]
          refine ⟨by simp, by simp, ?_⟩
          intro r d' ad' sz' hc
          injection hc with e1 e2 e3 e4
          exact ⟨e1.symm, by rw [if_pos hup]; exact e4.symm⟩
      · rw [if_neg hup]
        refine ⟨by simp, by simp, ?_⟩
        intro r d' ad' sz' hc
        injection hc with e1 e2 e3 e4
        exact ⟨e1.symm, by rw [if_neg hup]; exact e4.symm⟩

/-- Witness for C3: a 1-byte write at offset 0 of an empty file is within
the limit, so it does not report an error. -/
theorem c3_witness :
    ext2fs_writei fsW dW adW T_FILE 1 0 1 0 1 (fun _ => 65) ≠ .err ∧
    (0 : Nat) ≤ 0 ∧ (0 + 1 : Nat) ≤ 67383296 := by
  refine ⟨?_, le_refl 0, by norm_num⟩
  exact ((c3_writei_limit fsW dW adW T_FILE 1 0 1 0 1 (fun _ => 65) (by decide)
    (by norm_num [U32]) (by norm_num [U32])).2 (le_refl 0) (by norm_num)).1

/-! ### List helper lemmas for the inode cache -/

theorem findIdx?_some_spec {α : Type} (p : α → Bool) (d0 : α) :
    ∀ (l : List α) (i : Nat), l.findIdx? p = some i →
      i < l.length ∧ p (l.getD i d0) = true := by
  intro l
  induction l with
  | nil =>
      intro i h
      rw [List.findIdx?_nil] at h
      cases h
  | cons a as ih =>
      intro i h
      rw [List.findIdx?_cons, List.findIdx?_succ] at h
      by_cases hpa : p a
      · rw [if_pos hpa] at h
        cases h
        exact ⟨Nat.succ_pos _, by simpa using hpa⟩
      · rw [if_neg hpa] at h
        rcases Option.map_eq_some'.1 h with ⟨j, hj, rfl⟩
        obtain ⟨hl, hp⟩ := ih j hj
        exact ⟨Nat.succ_lt_succ hl, by simpa [List.getD_cons_succ] using hp⟩

theorem getD_set_self {α : Type} (l : List α) (i : Nat) (a d0 : α)
    (h : i < l.length) : (l.set i a).getD i d0 = a := by
  simp [List.getD_eq_getElem?_getD, List.getElem?_set_self h]

theorem getD_set_ne {α : Type} (l : List α) (i j : Nat) (a d0 : α)
    (h : j ≠ i) : (l.set i a).getD j d0 = l.getD j d0 := by
  simp [List.getD_eq_getElem?_getD, List.getElem?_set_ne (Ne.symm h)]

theorem getD_mem (l : List Ent) (i : Nat) (h : i < l.length) : l.getD i ent0 ∈ l := by
  rw [List.getD_eq_getElem?_getD, List.getElem?_eq_getElem h]
  exact List.getElem_mem h

/-- The live-match predicate of `iget`'s scan. -/
def igetMatch (dev inum : Nat) (e : Ent) : Bool :=
  decide (0 < e.ref) && decide (e.dev = dev) && decide (e.inum = inum)

theorem igetMatch_false {dev inum : Nat} {e : Ent} (h : igetMatch dev inum e = false)
    (hr : 0 < e.ref) : ¬(e.dev = dev ∧ e.inum = inum) := by
  intro ⟨h1, h2⟩
  rw [igetMatch, decide_eq_true hr, decide_eq_true h1, decide_eq_true h2] at h
  cases h

theorem igetMatch_true {dev inum : Nat} {e : Ent} (h : igetMatch dev inum e = true) :
    0 < e.ref ∧ e.dev = dev ∧ e.inum = inum := by
  rw [igetMatch, Bool.and_eq_true, Bool.and_eq_true] at h
  exact ⟨of_decide_eq_true h.1.1, of_decide_eq_true h.1.2, of_decide_eq_true h.2⟩

theorem iget_eq_live {l : List Ent} {dev inum i : Nat}
    (hf : List.findIdx? (igetMatch dev inum) l = some i) :
    iget l dev inum =
      some (l.set i { l.getD i ent0 with ref := (l.getD i ent0).ref + 1 }, i) := by
  unfold iget
  rw [show List.findIdx? (fun e => decide (0 < e.ref) && decide (e.dev = dev) &&
    decide (e.inum = inum)) l = some i from hf]

theorem iget_eq_fresh {l : List Ent} {dev inum j : Nat}
    (hf : List.findIdx? (igetMatch dev inum) l = none)
    (hf2 : List.findIdx? (fun e : Ent => decide (e.ref = 0)) l = some j) :
    iget l dev inum =
      some (l.set j
        { l.getD j ent0 with dev := dev, inum := inum, ref := 1, valid := 0 }, j) := by
  unfold iget
  rw [show List.findIdx? (fun e => decide (0 < e.ref) && decide (e.dev = dev) &&
    decide (e.inum = inum)) l = none from hf, hf2]

theorem iget_eq_panic {l : List Ent} {dev inum : Nat}
    (hf : List.findIdx? (igetMatch dev inum) l = none)
    (hf2 : List.findIdx? (fun e : Ent => decide (e.ref = 0)) l = none) :
    iget l dev inum = none := by
  unfold iget
  rw [show List.findIdx? (fun e => decide (0 < e.ref) && decide (e.dev = dev) &&
    decide (e.inum = inum)) l = none from hf, hf2]

/-- Updating one slot without changing its `(dev, inum)` and without
enlivening it preserves the inode-cache invariant. -/
theorem icacheInv_set_preserve (l : List Ent) (i : Nat) (e' : Ent)
    (hinv : icacheInv l)
    (hdev : e'.dev = (l.getD i ent0).dev) (hin : e'.inum = (l.getD i ent0).inum)
    (href : 0 < e'.ref → 0 < (l.getD i ent0).ref) :
    icacheInv (l.set i e') := by
  intro i' hi' j' hj' hne hri' hrj'
  rw [List.length_set] at hi' hj'
  have hget : ∀ k, k < l.length → (l.set i e').getD k ent0 =
      if k = i then e' else l.getD k ent0 := by
    intro k hk
    rcases eq_or_ne k i with rfl | hk2
    · rw [if_pos rfl]
      exact getD_set_self _ _ _ _ hk
    · rw [if_neg hk2]
      exact getD_set_ne _ _ _ _ _ hk2
  rw [hget i' hi'] at hri' ⊢
  rw [hget j' hj'] at hrj' ⊢
  rcases eq_or_ne i' i with rfl | hii
  · rw [if_pos rfl] at hri' ⊢
    rw [if_neg (by omega : j' ≠ i')] at hrj' ⊢
    rw [hdev, hin]
    exact hinv i' hi' j' hj' hne (href hri') hrj'
  · rw [if_neg hii] at hri' ⊢
    rcases eq_or_ne j' i with rfl | hjj
    · rw [if_pos rfl] at hrj' ⊢
      rw [hdev, hin]
      exact hinv i' hi' j' hj' hne hri' (href hrj')
    · rw [if_neg hjj] at hrj' ⊢
      exact hinv i' hi' j' hj' hne hri' hrj'

/-! ### C5: no two live inode-cache entries share `(device, inum)` -/

/-- C5: `iget` preserves the invariant that no two live cache entries hold
the same `(device, inum)`: when a live match exists it bumps that entry's
refcount and touches nothing else (so it never populates a second slot
with the pair), and when it populates a free slot no live entry holds the
pair; `idup` (on a referenced inode) and the refcount release of `iput`
preserve the invariant as well. -/
theorem c5_icache_unique (l : List Ent) (dev inum : Nat) (hinv : icacheInv l) :
    (∀ l' k, iget l dev inum = some (l', k) → icacheInv l') ∧
    ((∃ i, i < l.length ∧ 0 < (l.getD i ent0).ref ∧ (l.getD i ent0).dev = dev ∧
        (l.getD i ent0).inum = inum) →
      ∃ l' k, iget l dev inum = some (l', k) ∧ k < l.length ∧
        0 < (l'.getD k ent0).ref ∧ (l'.getD k ent0).dev = dev ∧
        (l'.getD k ent0).inum = inum ∧
        ∀ j, j ≠ k → l'.getD j ent0 = l.getD j ent0) ∧
    (∀ i, 0 < (l.getD i ent0).ref → icacheInv (idup l i)) ∧
    (∀ i, icacheInv (iputRelease l i)) := by
  refine ⟨?_, ?_, ?_, ?_⟩
  · intro l' k h
    rcases hf : List.findIdx? (igetMatch dev inum) l with _ | i
    · rcases hf2 : List.findIdx? (fun e : Ent => decide (e.ref = 0)) l with _ | j
      · rw [iget_eq_panic hf hf2] at h
        cases h
      · rw [iget_eq_fresh hf hf2, Option.some_inj] at h
        obtain ⟨h1, h3⟩ := Prod.ext_iff.1 h
        subst h1
        have hnone := List.findIdx?_eq_none_iff.1 hf
        intro i' hi' j' hj' hne hri' hrj'
        rw [List.length_set] at hi' hj'
        have hget : ∀ k2, k2 < l.length →
            (l.set j { l.getD j ent0 with
              dev := dev, inum := inum, ref := 1, valid := 0 }).getD k2 ent0 =
            if k2 = j then { l.getD j ent0 with
              dev := dev, inum := inum, ref := 1, valid := 0 }
            else l.getD k2 ent0 := by
          intro k2 hk
          rcases eq_or_ne k2 j with rfl | hk2
          · rw [if_pos rfl]
            exact getD_set_self _ _ _ _ hk
          · rw [if_neg hk2]
            exact getD_set_ne _ _ _ _ _ hk2
        rw [hget i' hi'] at hri' ⊢
        rw [hget j' hj'] at hrj' ⊢
        rcases eq_or_ne i' j with rfl | hii
        · rw [if_pos rfl]
          rw [if_neg (by omega : j' ≠ i')] at hrj' ⊢
          have hfa := hnone _ (getD_mem l j' hj')
          intro ⟨hc1, hc2⟩
          exact igetMatch_false hfa hrj' ⟨hc1.symm, hc2.symm⟩
        · rw [if_neg hii] at hri' ⊢
          rcases eq_or_ne j' j with rfl | hjj
          · rw [if_pos rfl]
            have hfa := hnone _ (getD_mem l i' hi')
            intro ⟨hc1, hc2⟩
            exact igetMatch_false hfa hri' ⟨hc1, hc2⟩
          · rw [if_neg hjj] at hrj' ⊢
            exact hinv i' hi' j' hj' hne hri' hrj'
    · rw [iget_eq_live hf, Option.some_inj] at h
      obtain ⟨h1, h3⟩ := Prod.ext_iff.1 h
      subst h1
      obtain ⟨hilen, hpi⟩ := findIdx?_some_spec _ ent0 l i hf
      exact icacheInv_set_preserve l i _ hinv rfl rfl
        (fun _ => (igetMatch_true hpi).1)
  · intro ⟨i, hi, hr, hd, hn⟩
    have hsome : (List.findIdx? (igetMatch dev inum) l).isSome = true := by
      rw [List.findIdx?_isSome, List.any_eq_true]
      refine ⟨l.getD i ent0, getD_mem l i hi, ?_⟩
      rw [igetMatch, decide_eq_true hr, decide_eq_true hd, decide_eq_true hn]
      rfl
    rcases hf : List.findIdx? (igetMatch dev inum) l with _ | k
    · rw [hf] at hsome
      cases hsome
    obtain ⟨hklen, hpk⟩ := findIdx?_some_spec _ ent0 l k hf
    obtain ⟨hkr, hkd, hkn⟩ := igetMatch_true hpk
    refine ⟨_, k, iget_eq_live hf, hklen, ?_, ?_, ?_, ?_⟩
    · rw [getD_set_self _ _ _ _ hklen]
      exact Nat.succ_pos _
    · rw [getD_set_self _ _ _ _ hklen]
      exact hkd
    · rw [getD_set_self _ _ _ _ hklen]
      exact hkn
    · intro j hj
      exact getD_set_ne _ _ _ _ _ hj
  · intro i hr
    exact icacheInv_set_preserve l i _ hinv rfl rfl (fun _ => hr)
  · intro i
    rw [iputRelease]
    split_ifs with hz
    · exact icacheInv_set_preserve l i _ hinv rfl rfl
        (fun h => Nat.lt_of_lt_of_le h (Nat.sub_le _ _))
    · exact icacheInv_set_preserve l i _ hinv rfl rfl
        (fun h => Nat.lt_of_lt_of_le h (Nat.sub_le _ _))

set_option maxRecDepth 8000 in
/-- Witness for C5 on a concrete three-slot cache holding a live entry for
`(1, 7)`. -/
theorem c5_witness :
    icacheInv [{ ent0 with dev := 1, inum := 7, ref := 2 }, ent0, ent0] ∧
    ∀ l' k, iget [{ ent0 with dev := 1, inum := 7, ref := 2 }, ent0, ent0] 1 9 =
      some (l', k) → icacheInv l' :=
  ⟨by decide,
   (c5_icache_unique [{ ent0 with dev := 1, inum := 7, ref := 2 }, ent0, ent0] 1 9
     (by decide)).1⟩

/-! ### C7: where the path walk starts -/

/-- C7 (code bug): on a cold cache, resolving an absolute path starts the
walk at `iget(ROOTDEV, ROOTINO)` with `ROOTINO = 1` — not at the ext2 root
inode `EXT2INO = 2`, although the kernel mounts only the ext2 volume.
A relative path duplicates the current directory via `idup`. -/
theorem c7_namex_root_inode :
    namexStart 1 [ent0, ent0] 0 ['/', 'e'] = some ([entRoot, ent0], 0) ∧
    entRoot.inum = ROOTINO ∧ ROOTINO = 1 ∧ EXT2INO = 2 ∧ ROOTINO ≠ EXT2INO ∧
    namexStart 1 [ent0, ent0] 0 ['x'] = some (idup [ent0, ent0] 0, 0) := by
  refine ⟨rfl, rfl, rfl, rfl, by decide, rfl⟩

/-! ### C8: `skipelem` truncates instead of rejecting long components -/

set_option maxRecDepth 20000 in
/-- C8, counterexample: a 256-character component is not rejected with the
error sentinel; `skipelem` returns the remainder and silently truncates
the name to the first `DIRSIZ = 14` bytes (with no terminating NUL). -/
theorem c8_counterexample :
    skipelem (List.replicate 256 'a') =
      some ([], List.replicate 14 'a', false) := by decide

theorem skipSlashes_eq_dropWhile (l : List Char) :
    skipSlashes l = l.dropWhile (fun c => c == '/') := by
  induction l with
  | nil => rfl
  | cons c t ih =>
      rw [skipSlashes, List.dropWhile_cons]
      by_cases hc : c = '/'
      · rw [if_pos hc, if_pos (by simp [hc])]
        exact ih
      · rw [if_neg hc, if_neg (by simp [hc])]

theorem scanComp_spec (l : List Char) :
    scanComp l = (l.takeWhile (fun c => !(c == '/')),
      l.dropWhile (fun c => !(c == '/'))) := by
  induction l with
  | nil => rfl
  | cons c t ih =>
      rw [scanComp, List.takeWhile_cons, List.dropWhile_cons]
      by_cases hc : c = '/'
      · rw [if_pos hc, if_neg (by simp [hc]), if_neg (by simp [hc])]
      · rw [if_neg hc, if_pos (by simp [hc]), if_pos (by simp [hc]), ih]

/-- C8 (amended): `skipelem` returns the "no more" sentinel only when the
path is empty after leading slashes; for a nonempty component of any
length it returns the remainder pointer with trailing slashes skipped and
copies only the first `min(len, DIRSIZ) = min(len, 14)` bytes of the
component into the name buffer, NUL-terminating only when `len < 14` —
overlong components are truncated, never rejected. -/
theorem c8_skipelem_truncates (path : List Char) :
    (skipelem path = none ↔ path.dropWhile (fun c => c == '/') = []) ∧
    (∀ rest name term, skipelem path = some (rest, name, term) →
      name = ((path.dropWhile (fun c => c == '/')).takeWhile
        (fun c => !(c == '/'))).take DIRSIZ ∧
      name.length ≤ DIRSIZ ∧
      rest = (((path.dropWhile (fun c => c == '/')).dropWhile
        (fun c => !(c == '/'))).dropWhile (fun c => c == '/')) ∧
      (term = true ↔ ((path.dropWhile (fun c => c == '/')).takeWhile
        (fun c => !(c == '/'))).length < DIRSIZ)) := by
  rcases hd : path.dropWhile (fun c => c == '/') with _ | ⟨c, t⟩
  · have hred : skipelem path = none := by
      rw [skipelem, skipSlashes_eq_dropWhile, hd]
    refine ⟨by simp [hred, hd], ?_⟩
    intro rest name term h
    rw [hred] at h
    cases h
  · have hred : skipelem path =
        some (skipSlashes ((c :: t).dropWhile (fun x => !(x == '/'))),
          ((c :: t).takeWhile (fun x => !(x == '/'))).take DIRSIZ,
          decide (((c :: t).takeWhile (fun x => !(x == '/'))).length < DIRSIZ)) := by
      rw [skipelem, skipSlashes_eq_dropWhile, hd]
      simp only [scanComp_spec]
    refine ⟨by simp [hred, hd], ?_⟩
    intro rest name term h
    rw [hred, Option.some_inj] at h
    have h1 : skipSlashes ((c :: t).dropWhile (fun x => !(x == '/'))) = rest :=
      congrArg Prod.fst h
    have h2 : ((c :: t).takeWhile (fun x => !(x == '/'))).take DIRSIZ = name :=
      congrArg (fun p => p.2.1) h
    have h3 : decide (((c :: t).takeWhile (fun x => !(x == '/'))).length < DIRSIZ) =
        term := congrArg (fun p => p.2.2) h
    refine ⟨h2.symm, ?_, ?_, ?_⟩
    · rw [← h2]
      exact List.length_take_le _ _
    · rw [← h1, skipSlashes_eq_dropWhile]
    · rw [← h3]
      simp

/-- Witness for C8: on the path "a/b" the extractor returns component "a"
(NUL-terminated, shorter than `DIRSIZ`) and remainder "b". -/
theorem c8_witness :
    (['a'] : List Char) =
      (((['a', '/', 'b'] : List Char).dropWhile (fun c => c == '/')).takeWhile
        (fun c => !(c == '/'))).take DIRSIZ ∧
    skipelem ['a', '/', 'b'] = some (['b'], ['a'], true) :=
  ⟨((c8_skipelem_truncates ['a', '/', 'b']).2 ['b'] ['a'] true (by decide)).1,
   by decide⟩

/-! ### C2: word-level read/write algebra -/

theorem byteAt_setByte_at (b : Block) (i v : Nat) : byteAt (setByte b i v) i = v % 256 := by
  simp [byteAt, setByte]

theorem byteAt_setByte_ne (b : Block) (i v k : Nat) (h : k ≠ i) :
    byteAt (setByte b i v) k = byteAt b k := by
  simp [byteAt, setByte, h]

theorem set32_outside (b : Block) (off v k : Nat) (h : k < off ∨ off + 3 < k) :
    set32 b off v k = b k := by
  simp only [set32, setByte]
  rw [if_neg (by omega), if_neg (by omega), if_neg (by omega), if_neg (by omega)]

theorem read32_set32_self (b : Block) (off v : Nat) (hv : v < U32) :
    read32 (set32 b off v) off = v := by
  have hU : U32 = 4294967296 := rfl
  simp only [read32, set32]
  rw [byteAt_setByte_ne _ _ _ _ (by omega), byteAt_setByte_ne _ _ _ _ (by omega),
    byteAt_setByte_ne _ _ _ _ (by omega), byteAt_setByte_at]
  rw [byteAt_setByte_ne _ _ _ _ (by omega), byteAt_setByte_ne _ _ _ _ (by omega),
    byteAt_setByte_at]
  rw [byteAt_setByte_ne _ _ _ _ (by omega), byteAt_setByte_at]
  rw [byteAt_setByte_at]
  omega

theorem read32_set32_ne (b : Block) (off off' v : Nat)
    (h : off' + 4 ≤ off ∨ off + 4 ≤ off') :
    read32 (set32 b off v) off' = read32 b off' := by
  simp only [read32, byteAt]
  rw [set32_outside b off v off' (by omega), set32_outside b off v (off' + 1) (by omega),
    set32_outside b off v (off' + 2) (by omega), set32_outside b off v (off' + 3) (by omega)]

theorem read32idx_set32idx_self (b : Block) (j v : Nat) (hv : v < U32) :
    read32idx (set32idx b j v) j = v := by
  simp only [read32idx, set32idx]
  exact read32_set32_self b (4 * j) v hv

theorem read32idx_set32idx_ne (b : Block) (j j' v : Nat) (h : j' ≠ j) :
    read32idx (set32idx b j v) j' = read32idx b j' := by
  simp only [read32idx, set32idx]
  exact read32_set32_ne b (4 * j) (4 * j') v (by omega)

theorem read32idx_zeroBlock (j : Nat) : read32idx zeroBlock j = 0 := by
  simp [read32idx, read32, byteAt, zeroBlock]

theorem entryOf_congr {fs : FS} {d d' : Disk} (r j : Nat)
    (h : d' (fs.fp + r) = d (fs.fp + r)) :
    entryOf fs d' r j = entryOf fs d r j := by
  unfold entryOf
  rw [h]

/-! ### C2: specification of `ext2fs_get_free_bit` and `ext2fs_balloc` -/

/-- Setting bit `k` in the bitmap flips exactly that bit. -/
theorem bitFree_setBit (bm : Block) (k k2 : Nat) :
    bitFree (setByte bm (k / 8) (byteAt bm (k / 8) ||| bitMask (k % 8))) k2 =
      if k2 = k then false else bitFree bm k2 := by
  rcases eq_or_ne (k2 / 8) (k / 8) with hb | hb
  · rw [bitFree_eq_testBit, hb]
    rw [show byteAt (setByte bm (k / 8) (byteAt bm (k / 8) ||| bitMask (k % 8))) (k / 8) =
        (byteAt bm (k / 8) ||| bitMask (k % 8)) % 256 from byteAt_setByte_at _ _ _]
    have h8 : 7 - k2 % 8 < 8 := by omega
    rw [show (256 : Nat) = 2 ^ 8 from rfl, Nat.testBit_mod_two_pow, decide_eq_true h8,
      Bool.true_and, bitMask, testBit_set_bit]
    rcases eq_or_ne k2 k with rfl | hk
    · rw [if_pos rfl, if_pos rfl]
      simp
    · rw [if_neg (bit_byte_cases hk hb), if_neg hk, bitFree_eq_testBit, hb]
  · have hk : k2 ≠ k := fun hc => hb (by rw [hc])
    rw [if_neg hk, bitFree_eq_testBit, bitFree_eq_testBit,
      byteAt_setByte_ne _ _ _ _ hb]

/-- The bit `ext2fs_get_free_bit` returns is in range, was clear, and is the
only bit that changes. -/
theorem get_free_bit_spec {bm : Block} {nbits k : Nat} {bm' : Block}
    (h : ext2fs_get_free_bit bm nbits = some (k, bm')) :
    k < scanLimit nbits ∧ bitFree bm k = true ∧
    ∀ k2, bitFree bm' k2 = if k2 = k then false else bitFree bm k2 := by
  unfold ext2fs_get_free_bit at h
  rcases hidx : getFreeBitIdx bm nbits with _ | k0
  all_goals rw [hidx] at h
  · exact absurd h (by simp)
  · rw [Option.some_inj, Prod.mk.injEq] at h
    obtain ⟨hk, hbm⟩ := h
    subst hk
    unfold getFreeBitIdx at hidx
    refine ⟨List.mem_range.1 (List.mem_of_find?_eq_some hidx), List.find?_some hidx, ?_⟩
    intro k2
    rw [← hbm]
    exact bitFree_setBit bm _ k2

/-- What `ext2fs_balloc` guarantees under the write invariant: the returned
block is fresh (safe, in the scanned window, mapped nowhere), it is zeroed,
only the bitmap block and the new block change, and the bitmap changes by
exactly the one bit. -/
theorem balloc_spec {fs : FS} {inum bbm itbl : Nat} {d : Disk} {ad : Addrs}
    (hI : WInv fs inum bbm itbl d ad) {rel : Nat} {d' : Disk}
    (h : ext2fs_balloc fs d inum = some (rel, d')) :
    relSafe bbm (itRelOf fs itbl inum) rel ∧
    (∀ p r0, slotVal fs d ad p = some r0 → r0 ≠ rel) ∧
    groupFirst fs inum ≤ rel ∧
    rel < groupFirst fs inum + scanRangeOf fs ∧
    d' (rel + fs.fp) = zeroBlock ∧
    (∀ a, a ≠ bitmapAddr fs bbm → a ≠ rel + fs.fp → d' a = d a) ∧
    (∀ k2, bitFree (d' (bitmapAddr fs bbm)) k2 =
      if k2 = rel - groupFirst fs inum then false
      else bitFree (d (bitmapAddr fs bbm)) k2) := by
  simp only [ext2fs_balloc] at h
  rw [hI.hdesc] at h
  rcases hg : ext2fs_get_free_bit (d (bbm + fs.fp)) fs.sb.s_blocks_per_group
    with _ | ⟨fbit, bm'⟩
  all_goals rw [hg] at h
  · exact absurd h (by simp)
  · rw [Option.some_inj, Prod.mk.injEq] at h
    obtain ⟨hrel, hd'⟩ := h
    rw [hrel] at hd'
    obtain ⟨hflt, hfree, hbits⟩ := get_free_bit_spec hg
    have hgf : groupFirst fs inum + fbit = rel := hrel
    have hscan : scanLimit fs.sb.s_blocks_per_group = scanRangeOf fs := rfl
    rw [hscan] at hflt
    have hbmA : bitmapAddr fs bbm = bbm + fs.fp := rfl
    have hsafe : relSafe bbm (itRelOf fs itbl inum) rel := by
      rw [← hgf]
      exact hI.hfree fbit hflt (by rw [hbmA]; exact hfree)
    have hfb : fbit = rel - groupFirst fs inum := by omega
    have hne : rel + fs.fp ≠ bbm + fs.fp := by
      have := hsafe.2.2.2.1
      omega
    refine ⟨hsafe, ?_, by omega, by omega, ?_, ?_, ?_⟩
    · intro p r0 hp hc
      subst hc
      have hb := (hI.hstruct p r0 hp).2 (by omega) (by omega)
      rw [hbmA] at hb
      have : r0 - groupFirst fs inum = fbit := by omega
      rw [this, hfree] at hb
      simp at hb
    · rw [← hd', writeBlock_at]
    · intro a ha1 ha2
      rw [hbmA] at ha1
      rw [← hd', writeBlock_ne _ _ _ _ ha2, writeBlock_ne _ _ _ _ ha1]
    · intro k2
      rw [hbmA, ← hd', writeBlock_ne _ _ _ _ (Ne.symm hne), writeBlock_at, hbits k2, ← hfb]

/-! ### C2: how `slotVal` changes under the disk/addrs updates of the write path -/

theorem slotTop_zero {ad : Addrs} {s : Nat} (h : ad s = 0) : slotTop ad s = none := by
  simp [slotTop, h]

/-- Reading a mapped chain is unchanged on a disk that agrees on every
mapped block. -/
theorem slotVal_frame {fs : FS} {d d' : Disk} {ad : Addrs}
    (hk : ∀ p r, slotVal fs d ad p = some r → d' (fs.fp + r) = d (fs.fp + r)) :
    ∀ p, slotVal fs d' ad p = slotVal fs d ad p := by
  intro p
  cases p with
  | direct i => rfl
  | indTop => rfl
  | indLeaf j =>
      rcases Nat.lt_or_ge j 256 with hj | hj
      · rcases h12 : slotTop ad 12 with _ | a
        · simp [slotVal, h12]
        · simp only [slotVal, h12, if_pos hj, Option.some_bind]
          exact entryOf_congr a j (hk .indTop a h12)
      · simp [slotVal, Nat.not_lt.2 hj]
  | dindTop => rfl
  | dindMid j =>
      rcases Nat.lt_or_ge j 256 with hj | hj
      · rcases h13 : slotTop ad 13 with _ | a
        · simp [slotVal, h13]
        · simp only [slotVal, h13, if_pos hj, Option.some_bind]
          exact entryOf_congr a j (hk .dindTop a h13)
      · simp [slotVal, Nat.not_lt.2 hj]
  | dindLeaf j l =>
      rcases Nat.lt_or_ge j 256 with hj | hj
      · rcases Nat.lt_or_ge l 256 with hl | hl
        · rcases h13 : slotTop ad 13 with _ | a
          · simp [slotVal, h13]
          · simp only [slotVal, h13, if_pos (And.intro hj hl), Option.some_bind]
            rw [entryOf_congr a j (hk .dindTop a h13)]
            rcases hm : entryOf fs d a j with _ | m
            · simp
            · have hmid : slotVal fs d ad (.dindMid j) = some m := by
                simp [slotVal, h13, hm, hj]
              simp only [Option.some_bind]
              exact entryOf_congr m l (hk (.dindMid j) m hmid)
        · simp [slotVal, Nat.not_lt.2 hl]
      · simp [slotVal, Nat.not_lt.2 hj]
  | tindTop => rfl
  | tindMid j =>
      rcases Nat.lt_or_ge j 256 with hj | hj
      · rcases h14 : slotTop ad 14 with _ | a
        · simp [slotVal, h14]
        · simp only [slotVal, h14, if_pos hj, Option.some_bind]
          exact entryOf_congr a j (hk .tindTop a h14)
      · simp [slotVal, Nat.not_lt.2 hj]
  | tindMid2 j l =>
      rcases Nat.lt_or_ge j 256 with hj | hj
      · rcases Nat.lt_or_ge l 256 with hl | hl
        · rcases h14 : slotTop ad 14 with _ | a
          · simp [slotVal, h14]
          · simp only [slotVal, h14, if_pos (And.intro hj hl), Option.some_bind]
            rw [entryOf_congr a j (hk .tindTop a h14)]
            rcases hm : entryOf fs d a j with _ | m
            · simp
            · have hmid : slotVal fs d ad (.tindMid j) = some m := by
                simp [slotVal, h14, hm, hj]
              simp only [Option.some_bind]
              exact entryOf_congr m l (hk (.tindMid j) m hmid)
        · simp [slotVal, Nat.not_lt.2 hl]
      · simp [slotVal, Nat.not_lt.2 hj]
  | tindLeaf j l k =>
      rcases Nat.lt_or_ge j 256 with hj | hj
      · rcases Nat.lt_or_ge l 256 with hl | hl
        · rcases Nat.lt_or_ge k 256 with hk2 | hk2
          · rcases h14 : slotTop ad 14 with _ | a
            · simp [slotVal, h14]
            · simp only [slotVal, h14, if_pos (And.intro hj (And.intro hl hk2)),
                Option.some_bind]
              rw [entryOf_congr a j (hk .tindTop a h14)]
              rcases hm : entryOf fs d a j with _ | m
              · simp
              · have hmid : slotVal fs d ad (.tindMid j) = some m := by
                  simp [slotVal, h14, hm, hj]
                simp only [Option.some_bind]
                rw [entryOf_congr m l (hk (.tindMid j) m hmid)]
                rcases hm2 : entryOf fs d m l with _ | m2
                · simp
                · have hmid2 : slotVal fs d ad (.tindMid2 j l) = some m2 := by
                    simp [slotVal, h14, hm, hm2, hj, hl]
                  simp only [Option.some_bind]
                  exact entryOf_congr m2 k (hk (.tindMid2 j l) m2 hmid2)
          · simp [slotVal, Nat.not_lt.2 hk2]
        · simp [slotVal, Nat.not_lt.2 hl]
      · simp [slotVal, Nat.not_lt.2 hj]

/-- As `slotVal_frame`, but the disk needs to agree only away from one
non-chain position `q` (used when overwriting a data block's contents). -/
theorem slotVal_frame_ne {fs : FS} {d d' : Disk} {ad : Addrs} {q : Pos}
    (hq : q ≠ .indTop ∧ q ≠ .dindTop ∧ (∀ j, q ≠ .dindMid j) ∧ q ≠ .tindTop ∧
      (∀ j, q ≠ .tindMid j) ∧ ∀ j l, q ≠ .tindMid2 j l)
    (hk : ∀ p r, slotVal fs d ad p = some r → p ≠ q →
      d' (fs.fp + r) = d (fs.fp + r)) :
    ∀ p, slotVal fs d' ad p = slotVal fs d ad p := by
  intro p
  cases p with
  | direct i => rfl
  | indTop => rfl
  | indLeaf j =>
      rcases Nat.lt_or_ge j 256 with hj | hj
      · rcases h12 : slotTop ad 12 with _ | a
        · simp [slotVal, h12]
        · simp only [slotVal, h12, if_pos hj, Option.some_bind]
          exact entryOf_congr a j (hk .indTop a h12 (Ne.symm hq.1))
      · simp [slotVal, Nat.not_lt.2 hj]
  | dindTop => rfl
  | dindMid j =>
      rcases Nat.lt_or_ge j 256 with hj | hj
      · rcases h13 : slotTop ad 13 with _ | a
        · simp [slotVal, h13]
        · simp only [slotVal, h13, if_pos hj, Option.some_bind]
          exact entryOf_congr a j (hk .dindTop a h13 (Ne.symm hq.2.1))
      · simp [slotVal, Nat.not_lt.2 hj]
  | dindLeaf j l =>
      rcases Nat.lt_or_ge j 256 with hj | hj
      · rcases Nat.lt_or_ge l 256 with hl | hl
        · rcases h13 : slotTop ad 13 with _ | a
          · simp [slotVal, h13]
          · simp only [slotVal, h13, if_pos (And.intro hj hl), Option.some_bind]
            rw [entryOf_congr a j (hk .dindTop a h13 (Ne.symm hq.2.1))]
            rcases hm : entryOf fs d a j with _ | m
            · simp
            · have hmid : slotVal fs d ad (.dindMid j) = some m := by
                simp [slotVal, h13, hm, hj]
              simp only [Option.some_bind]
              exact entryOf_congr m l (hk (.dindMid j) m hmid (Ne.symm (hq.2.2.1 j)))
        · simp [slotVal, Nat.not_lt.2 hl]
      · simp [slotVal, Nat.not_lt.2 hj]
  | tindTop => rfl
  | tindMid j =>
      rcases Nat.lt_or_ge j 256 with hj | hj
      · rcases h14 : slotTop ad 14 with _ | a
        · simp [slotVal, h14]
        · simp only [slotVal, h14, if_pos hj, Option.some_bind]
          exact entryOf_congr a j (hk .tindTop a h14 (Ne.symm hq.2.2.2.1))
      · simp [slotVal, Nat.not_lt.2 hj]
  | tindMid2 j l =>
      rcases Nat.lt_or_ge j 256 with hj | hj
      · rcases Nat.lt_or_ge l 256 with hl | hl
        · rcases h14 : slotTop ad 14 with _ | a
          · simp [slotVal, h14]
          · simp only [slotVal, h14, if_pos (And.intro hj hl), Option.some_bind]
            rw [entryOf_congr a j (hk .tindTop a h14 (Ne.symm hq.2.2.2.1))]
            rcases hm : entryOf fs d a j with _ | m
            · simp
            · have hmid : slotVal fs d ad (.tindMid j) = some m := by
                simp [slotVal, h14, hm, hj]
              simp only [Option.some_bind]
              exact entryOf_congr m l (hk (.tindMid j) m hmid (Ne.symm (hq.2.2.2.2.1 j)))
        · simp [slotVal, Nat.not_lt.2 hl]
      · simp [slotVal, Nat.not_lt.2 hj]
  | tindLeaf j l k =>
      rcases Nat.lt_or_ge j 256 with hj | hj
      · rcases Nat.lt_or_ge l 256 with hl | hl
        · rcases Nat.lt_or_ge k 256 with hk2 | hk2
          · rcases h14 : slotTop ad 14 with _ | a
            · simp [slotVal, h14]
            · simp only [slotVal, h14, if_pos (And.intro hj (And.intro hl hk2)),
                Option.some_bind]
              rw [entryOf_congr a j (hk .tindTop a h14 (Ne.symm hq.2.2.2.1))]
              rcases hm : entryOf fs d a j with _ | m
              · simp
              · have hmid : slotVal fs d ad (.tindMid j) = some m := by
                  simp [slotVal, h14, hm, hj]
                simp only [Option.some_bind]
                rw [entryOf_congr m l (hk (.tindMid j) m hmid (Ne.symm (hq.2.2.2.2.1 j)))]
                rcases hm2 : entryOf fs d m l with _ | m2
                · simp
                · have hmid2 : slotVal fs d ad (.tindMid2 j l) = some m2 := by
                    simp [slotVal, h14, hm, hm2, hj, hl]
                  simp only [Option.some_bind]
                  exact entryOf_congr m2 k (hk (.tindMid2 j l) m2 hmid2 (Ne.symm (hq.2.2.2.2.2 j l)))
          · simp [slotVal, Nat.not_lt.2 hk2]
        · simp [slotVal, Nat.not_lt.2 hl]
      · simp [slotVal, Nat.not_lt.2 hj]

/-- Writing a fresh zeroed block into a top-level `addrs` slot maps exactly
the slot's own position; every descendant reads the zero block and every
other chain is untouched. -/
theorem slotVal_setAddr_top {fs : FS} {d : Disk} {ad : Addrs} {s rel : Nat}
    (hs : s < 12 ∨ s = 12 ∨ s = 13) (hz : ad s = 0) (hrel : rel ≠ 0)
    (hzero : d (fs.fp + rel) = zeroBlock) :
    ∀ p, slotVal fs d (setAddr ad s rel) p =
      if p = topPos s then some rel else slotVal fs d ad p := by
  have hset : ∀ i, setAddr ad s rel i = if i = s then rel else ad i := fun i => rfl
  have htopS : slotTop (setAddr ad s rel) s = some rel := by
    simp [slotTop, hset, hrel]
  have htopNe : ∀ i, i ≠ s → slotTop (setAddr ad s rel) i = slotTop ad i := by
    intro i hi
    simp [slotTop, hset, hi]
  have hzentry : ∀ j, entryOf fs d rel j = none := by
    intro j
    simp [entryOf, hzero, read32idx_zeroBlock]
  intro p
  cases p with
  | direct i =>
      rcases hs with hs | hs | hs
      · rcases eq_or_ne i s with rfl | hi
        · rw [if_pos (by simp [topPos, hs])]
          simp only [slotVal, if_pos hs, htopS]
        · rw [if_neg (by simp [topPos, hs, hi])]
          rcases Nat.lt_or_ge i 12 with hi12 | hi12
          · simp only [slotVal, if_pos hi12, htopNe i hi]
          · simp [slotVal, Nat.not_lt.2 hi12]
      all_goals
        subst hs
        rw [if_neg (by simp [topPos])]
        rcases Nat.lt_or_ge i 12 with hi12 | hi12
        · simp only [slotVal, if_pos hi12, htopNe i (by omega)]
        · simp [slotVal, Nat.not_lt.2 hi12]
  | indTop =>
      rcases eq_or_ne s 12 with rfl | hs12
      · rw [if_pos (by simp [topPos])]
        exact htopS
      · rw [if_neg (by simp [topPos]; rcases hs with h | h | h <;> simp [h, hs12] <;> omega)]
        exact htopNe 12 (Ne.symm hs12)
  | indLeaf j =>
      rw [if_neg (by rcases hs with h | h | h <;> simp [topPos, h])]
      rcases Nat.lt_or_ge j 256 with hj | hj
      · rcases eq_or_ne s 12 with rfl | hs12
        · simp only [slotVal, if_pos hj, htopS, Option.some_bind, slotTop_zero hz,
            Option.none_bind, hzentry j]
        · simp only [slotVal, if_pos hj, htopNe 12 (Ne.symm hs12)]
      · simp [slotVal, Nat.not_lt.2 hj]
  | dindTop =>
      rcases eq_or_ne s 13 with rfl | hs13
      · rw [if_pos (by simp [topPos])]
        exact htopS
      · rw [if_neg (by rcases hs with h | h | h <;> simp [topPos, h, hs13] <;> omega)]
        exact htopNe 13 (Ne.symm hs13)
  | dindMid j =>
      rw [if_neg (by rcases hs with h | h | h <;> simp [topPos, h])]
      rcases Nat.lt_or_ge j 256 with hj | hj
      · rcases eq_or_ne s 13 with rfl | hs13
        · simp only [slotVal, if_pos hj, htopS, Option.some_bind, slotTop_zero hz,
            Option.none_bind, hzentry j]
        · simp only [slotVal, if_pos hj, htopNe 13 (Ne.symm hs13)]
      · simp [slotVal, Nat.not_lt.2 hj]
  | dindLeaf j l =>
      rw [if_neg (by rcases hs with h | h | h <;> simp [topPos, h])]
      rcases Nat.lt_or_ge j 256 with hj | hj
      · rcases Nat.lt_or_ge l 256 with hl | hl
        · rcases eq_or_ne s 13 with rfl | hs13
          · simp only [slotVal, if_pos (And.intro hj hl), htopS, Option.some_bind,
              slotTop_zero hz, Option.none_bind, hzentry j]
          · simp only [slotVal, if_pos (And.intro hj hl), htopNe 13 (Ne.symm hs13)]
        · simp [slotVal, Nat.not_lt.2 hl]
      · simp [slotVal, Nat.not_lt.2 hj]
  | tindTop =>
      rw [if_neg (by rcases hs with h | h | h <;> simp [topPos, h] <;> omega)]
      exact htopNe 14 (by rcases hs with h | h | h <;> omega)
  | tindMid j =>
      rw [if_neg (by rcases hs with h | h | h <;> simp [topPos, h])]
      rcases Nat.lt_or_ge j 256 with hj | hj
      · simp only [slotVal, if_pos hj, htopNe 14 (by rcases hs with h | h | h <;> omega)]
      · simp [slotVal, Nat.not_lt.2 hj]
  | tindMid2 j l =>
      rw [if_neg (by rcases hs with h | h | h <;> simp [topPos, h])]
      rcases Nat.lt_or_ge j 256 with hj | hj
      · rcases Nat.lt_or_ge l 256 with hl | hl
        · simp only [slotVal, if_pos (And.intro hj hl),
            htopNe 14 (by rcases hs with h | h | h <;> omega)]
        · simp [slotVal, Nat.not_lt.2 hl]
      · simp [slotVal, Nat.not_lt.2 hj]
  | tindLeaf j l k =>
      rw [if_neg (by rcases hs with h | h | h <;> simp [topPos, h])]
      rcases Nat.lt_or_ge j 256 with hj | hj
      · rcases Nat.lt_or_ge l 256 with hl | hl
        · rcases Nat.lt_or_ge k 256 with hk | hk
          · simp only [slotVal, if_pos (And.intro hj (And.intro hl hk)),
              htopNe 14 (by rcases hs with h | h | h <;> omega)]
          · simp [slotVal, Nat.not_lt.2 hk]
        · simp [slotVal, Nat.not_lt.2 hl]
      · simp [slotVal, Nat.not_lt.2 hj]

/-- Allocating entry `j` of the single-indirect top block `a`: exactly
`indLeaf j` becomes mapped (to the fresh zeroed block `e`); every other
chain is unchanged. `d1` is the disk after `balloc`'s side effects. -/
theorem slotVal_indEntry_alloc {fs : FS} {inum bbm itbl : Nat} {d : Disk} {ad : Addrs}
    (hI : WInv fs inum bbm itbl d ad) {a j e : Nat} (hj : j < 256)
    (ha : slotVal fs d ad .indTop = some a)
    (heS : relSafe bbm (itRelOf fs itbl inum) e)
    (heNS : ∀ p r0, slotVal fs d ad p = some r0 → r0 ≠ e)
    {d1 : Disk}
    (hframe : ∀ x, x ≠ bitmapAddr fs bbm → x ≠ fs.fp + e → d1 x = d x) :
    ∀ p, slotVal fs (writeBlock d1 (fs.fp + a) (set32idx (d (fs.fp + a)) j e)) ad p =
      if p = .indLeaf j then some e else slotVal fs d ad p := by
  have hbmA : bitmapAddr fs bbm = bbm + fs.fp := rfl
  set d2 := writeBlock d1 (fs.fp + a) (set32idx (d (fs.fp + a)) j e) with hd2
  have ha' : slotTop ad 12 = some a := ha
  have hd2a : d2 (fs.fp + a) = set32idx (d (fs.fp + a)) j e := writeBlock_at _ _ _
  have hkeep : ∀ p0 r0, slotVal fs d ad p0 = some r0 → r0 ≠ a →
      d2 (fs.fp + r0) = d (fs.fp + r0) := by
    intro p0 r0 h0 hne
    rw [hd2, writeBlock_ne _ _ _ _ (by omega)]
    have hbbm := (hI.hstruct p0 r0 h0).1.2.2.2.1
    have hre := heNS p0 r0 h0
    exact hframe _ (by omega) (by omega)
  have hentry_self : entryOf fs d2 a j = some e := by
    unfold entryOf
    rw [hd2a, read32idx_set32idx_self _ _ _ heS.2.1]
    rw [if_neg (by have := heS.1; omega)]
  have hentry_ne : ∀ j', j' ≠ j → entryOf fs d2 a j' = entryOf fs d a j' := by
    intro j' hj'
    unfold entryOf
    rw [hd2a, read32idx_set32idx_ne _ _ _ _ hj']
  intro p
  cases p with
  | direct i =>
      rw [if_neg (by simp)]
      rfl
  | indTop =>
      rw [if_neg (by simp)]
      rfl
  | indLeaf j' =>
      rcases Nat.lt_or_ge j' 256 with hj' | hj'
      · rcases eq_or_ne j' j with rfl | hne
        · rw [if_pos rfl]
          simp only [slotVal, if_pos hj', ha', Option.some_bind, hentry_self]
        · rw [if_neg (by simp [hne])]
          simp only [slotVal, if_pos hj', ha', Option.some_bind, hentry_ne j' hne]
      · rw [if_neg (by simp; omega)]
        simp [slotVal, Nat.not_lt.2 hj']
  | dindTop =>
      rw [if_neg (by simp)]
      rfl
  | dindMid j' =>
      rw [if_neg (by simp)]
      rcases Nat.lt_or_ge j' 256 with hj' | hj'
      · rcases h13 : slotTop ad 13 with _ | a13
        · simp [slotVal, h13]
        · have hne13 : a13 ≠ a := by
            intro hc
            exact absurd (hI.hinj .dindTop .indTop a (hc ▸ h13) ha) (by simp)
          simp only [slotVal, h13, if_pos hj', Option.some_bind]
          exact entryOf_congr a13 j' (hkeep .dindTop a13 h13 hne13)
      · simp [slotVal, Nat.not_lt.2 hj']
  | dindLeaf j' l' =>
      rw [if_neg (by simp)]
      rcases Nat.lt_or_ge j' 256 with hj' | hj'
      · rcases Nat.lt_or_ge l' 256 with hl' | hl'
        · rcases h13 : slotTop ad 13 with _ | a13
          · simp [slotVal, h13]
          · have hne13 : a13 ≠ a := by
              intro hc
              exact absurd (hI.hinj .dindTop .indTop a (hc ▸ h13) ha) (by simp)
            simp only [slotVal, h13, if_pos (And.intro hj' hl'), Option.some_bind]
            rw [entryOf_congr a13 j' (hkeep .dindTop a13 h13 hne13)]
            rcases hm : entryOf fs d a13 j' with _ | m
            · simp
            · have hmid : slotVal fs d ad (.dindMid j') = some m := by
                simp [slotVal, h13, hm, hj']
              have hnem : m ≠ a := by
                intro hc
                exact absurd (hI.hinj (.dindMid j') .indTop a (hc ▸ hmid) ha) (by simp)
              simp only [Option.some_bind]
              exact entryOf_congr m l' (hkeep (.dindMid j') m hmid hnem)
        · simp [slotVal, Nat.not_lt.2 hl']
      · simp [slotVal, Nat.not_lt.2 hj']
  | tindTop =>
      rw [if_neg (by simp)]
      simp [slotVal, slotTop_zero hI.had14]
  | tindMid j' =>
      rw [if_neg (by simp)]
      simp [slotVal, slotTop_zero hI.had14]
  | tindMid2 j' l' =>
      rw [if_neg (by simp)]
      simp [slotVal, slotTop_zero hI.had14]
  | tindLeaf j' l' k' =>
      rw [if_neg (by simp)]
      simp [slotVal, slotTop_zero hI.had14]

/-- Allocating entry `j` of the double-indirect top block `a`: exactly
`dindMid j` becomes mapped, its leaves read the fresh zero block, and
every other chain is unchanged. -/
theorem slotVal_dindTopEntry_alloc {fs : FS} {inum bbm itbl : Nat} {d : Disk}
    {ad : Addrs}
    (hI : WInv fs inum bbm itbl d ad) {a j e : Nat} (hj : j < 256)
    (ha : slotVal fs d ad .dindTop = some a)
    (he0 : read32idx (d (fs.fp + a)) j = 0)
    (heS : relSafe bbm (itRelOf fs itbl inum) e)
    (heNS : ∀ p r0, slotVal fs d ad p = some r0 → r0 ≠ e)
    {d1 : Disk}
    (hframe : ∀ x, x ≠ bitmapAddr fs bbm → x ≠ fs.fp + e → d1 x = d x)
    (hzero : d1 (fs.fp + e) = zeroBlock) :
    ∀ p, slotVal fs (writeBlock d1 (fs.fp + a) (set32idx (d (fs.fp + a)) j e)) ad p =
      if p = .dindMid j then some e else slotVal fs d ad p := by
  have hbmA : bitmapAddr fs bbm = bbm + fs.fp := rfl
  set d2 := writeBlock d1 (fs.fp + a) (set32idx (d (fs.fp + a)) j e) with hd2
  have ha' : slotTop ad 13 = some a := ha
  have hae : a ≠ e := heNS .dindTop a ha
  have hd2a : d2 (fs.fp + a) = set32idx (d (fs.fp + a)) j e := writeBlock_at _ _ _
  have hkeep : ∀ p0 r0, slotVal fs d ad p0 = some r0 → r0 ≠ a →
      d2 (fs.fp + r0) = d (fs.fp + r0) := by
    intro p0 r0 h0 hne
    rw [hd2, writeBlock_ne _ _ _ _ (by omega)]
    have hbbm := (hI.hstruct p0 r0 h0).1.2.2.2.1
    have hre := heNS p0 r0 h0
    exact hframe _ (by omega) (by omega)
  have hd2e : d2 (fs.fp + e) = zeroBlock := by
    rw [hd2, writeBlock_ne _ _ _ _ (by omega), hzero]
  have hentry_self : entryOf fs d2 a j = some e := by
    unfold entryOf
    rw [hd2a, read32idx_set32idx_self _ _ _ heS.2.1]
    rw [if_neg (by have := heS.1; omega)]
  have hentry_ne : ∀ j', j' ≠ j → entryOf fs d2 a j' = entryOf fs d a j' := by
    intro j' hj'
    unfold entryOf
    rw [hd2a, read32idx_set32idx_ne _ _ _ _ hj']
  have hentry_e : ∀ l, entryOf fs d2 e l = none := by
    intro l
    unfold entryOf
    rw [hd2e, read32idx_zeroBlock]
    simp
  intro p
  cases p with
  | direct i =>
      rw [if_neg (by simp)]
      rfl
  | indTop =>
      rw [if_neg (by simp)]
      rfl
  | indLeaf j' =>
      rw [if_neg (by simp)]
      rcases Nat.lt_or_ge j' 256 with hj' | hj'
      · rcases h12 : slotTop ad 12 with _ | a12
        · simp [slotVal, h12]
        · have hne12 : a12 ≠ a := by
            intro hc
            exact absurd (hI.hinj .indTop .dindTop a (hc ▸ h12) ha) (by simp)
          simp only [slotVal, h12, if_pos hj', Option.some_bind]
          exact entryOf_congr a12 j' (hkeep .indTop a12 h12 hne12)
      · simp [slotVal, Nat.not_lt.2 hj']
  | dindTop =>
      rw [if_neg (by simp)]
      rfl
  | dindMid j' =>
      rcases Nat.lt_or_ge j' 256 with hj' | hj'
      · rcases eq_or_ne j' j with rfl | hne
        · rw [if_pos rfl]
          simp only [slotVal, if_pos hj', ha', Option.some_bind, hentry_self]
        · rw [if_neg (by simp [hne])]
          simp only [slotVal, if_pos hj', ha', Option.some_bind, hentry_ne j' hne]
      · rw [if_neg (by simp; omega)]
        simp [slotVal, Nat.not_lt.2 hj']
  | dindLeaf j' l' =>
      rw [if_neg (by simp)]
      rcases Nat.lt_or_ge j' 256 with hj' | hj'
      · rcases Nat.lt_or_ge l' 256 with hl' | hl'
        · rcases eq_or_ne j' j with rfl | hne
          · simp only [slotVal, ha', if_pos (And.intro hj' hl'), Option.some_bind,
              hentry_self, hentry_e l']
            unfold entryOf
            rw [he0]
            simp
          · simp only [slotVal, ha', if_pos (And.intro hj' hl'), Option.some_bind,
              hentry_ne j' hne]
            rcases hm : entryOf fs d a j' with _ | m
            · simp
            · have hmid : slotVal fs d ad (.dindMid j') = some m := by
                simp [slotVal, ha', hm, hj']
              have hnem : m ≠ a := by
                intro hc
                exact absurd (hI.hinj (.dindMid j') .dindTop a (hc ▸ hmid) ha)
                  (by simp)
              simp only [Option.some_bind]
              exact entryOf_congr m l' (hkeep (.dindMid j') m hmid hnem)
        · simp [slotVal, Nat.not_lt.2 hl']
      · simp [slotVal, Nat.not_lt.2 hj']
  | tindTop =>
      rw [if_neg (by simp)]
      simp [slotVal, slotTop_zero hI.had14]
  | tindMid j' =>
      rw [if_neg (by simp)]
      simp [slotVal, slotTop_zero hI.had14]
  | tindMid2 j' l' =>
      rw [if_neg (by simp)]
      simp [slotVal, slotTop_zero hI.had14]
  | tindLeaf j' l' k' =>
      rw [if_neg (by simp)]
      simp [slotVal, slotTop_zero hI.had14]

/-- Allocating entry `l` of the mid-level block `a` reached through
`dindMid j0`: exactly `dindLeaf j0 l` becomes mapped; every other chain is
unchanged. -/
theorem slotVal_dindMidEntry_alloc {fs : FS} {inum bbm itbl : Nat} {d : Disk}
    {ad : Addrs}
    (hI : WInv fs inum bbm itbl d ad) {a j0 l e : Nat} (hj0 : j0 < 256) (hl : l < 256)
    (ha : slotVal fs d ad (.dindMid j0) = some a)
    (heS : relSafe bbm (itRelOf fs itbl inum) e)
    (heNS : ∀ p r0, slotVal fs d ad p = some r0 → r0 ≠ e)
    {d1 : Disk}
    (hframe : ∀ x, x ≠ bitmapAddr fs bbm → x ≠ fs.fp + e → d1 x = d x) :
    ∀ p, slotVal fs (writeBlock d1 (fs.fp + a) (set32idx (d (fs.fp + a)) l e)) ad p =
      if p = .dindLeaf j0 l then some e else slotVal fs d ad p := by
  have hbmA : bitmapAddr fs bbm = bbm + fs.fp := rfl
  set d2 := writeBlock d1 (fs.fp + a) (set32idx (d (fs.fp + a)) l e) with hd2
  obtain ⟨a13, h13, hea⟩ : ∃ a13, slotTop ad 13 = some a13 ∧ entryOf fs d a13 j0 = some a := by
    have hmid := ha
    simp only [slotVal, if_pos hj0] at hmid
    rcases h13 : slotTop ad 13 with _ | a13
    · rw [h13] at hmid
      simp at hmid
    · rw [h13] at hmid
      simp only [Option.some_bind] at hmid
      exact ⟨a13, rfl, hmid⟩
  have hne13a : a13 ≠ a := by
    intro hc
    exact absurd (hI.hinj .dindTop (.dindMid j0) a (hc ▸ h13) ha) (by simp)
  have hd2a : d2 (fs.fp + a) = set32idx (d (fs.fp + a)) l e := writeBlock_at _ _ _
  have hkeep : ∀ p0 r0, slotVal fs d ad p0 = some r0 → r0 ≠ a →
      d2 (fs.fp + r0) = d (fs.fp + r0) := by
    intro p0 r0 h0 hne
    rw [hd2, writeBlock_ne _ _ _ _ (by omega)]
    have hbbm := (hI.hstruct p0 r0 h0).1.2.2.2.1
    have hre := heNS p0 r0 h0
    exact hframe _ (by omega) (by omega)
  have hentry_self : entryOf fs d2 a l = some e := by
    unfold entryOf
    rw [hd2a, read32idx_set32idx_self _ _ _ heS.2.1]
    rw [if_neg (by have := heS.1; omega)]
  have hentry_ne : ∀ l', l' ≠ l → entryOf fs d2 a l' = entryOf fs d a l' := by
    intro l' hl'
    unfold entryOf
    rw [hd2a, read32idx_set32idx_ne _ _ _ _ hl']
  have h13keep : entryOf fs d2 a13 j0 = some a := by
    rw [entryOf_congr a13 j0 (hkeep .dindTop a13 h13 hne13a)]
    exact hea
  have h13keep' : ∀ j', entryOf fs d2 a13 j' = entryOf fs d a13 j' :=
    fun j' => entryOf_congr a13 j' (hkeep .dindTop a13 h13 hne13a)
  intro p
  cases p with
  | direct i =>
      rw [if_neg (by simp)]
      rfl
  | indTop =>
      rw [if_neg (by simp)]
      rfl
  | indLeaf j' =>
      rw [if_neg (by simp)]
      rcases Nat.lt_or_ge j' 256 with hj' | hj'
      · rcases h12 : slotTop ad 12 with _ | a12
        · simp [slotVal, h12]
        · have hne12 : a12 ≠ a := by
            intro hc
            exact absurd (hI.hinj .indTop (.dindMid j0) a (hc ▸ h12) ha) (by simp)
          simp only [slotVal, h12, if_pos hj', Option.some_bind]
          exact entryOf_congr a12 j' (hkeep .indTop a12 h12 hne12)
      · simp [slotVal, Nat.not_lt.2 hj']
  | dindTop =>
      rw [if_neg (by simp)]
      rfl
  | dindMid j' =>
      rw [if_neg (by simp)]
      rcases Nat.lt_or_ge j' 256 with hj' | hj'
      · simp only [slotVal, h13, if_pos hj', Option.some_bind, h13keep' j']
      · simp [slotVal, Nat.not_lt.2 hj']
  | dindLeaf j' l' =>
      rcases Nat.lt_or_ge j' 256 with hj' | hj'
      · rcases Nat.lt_or_ge l' 256 with hl' | hl'
        · rcases eq_or_ne j' j0 with rfl | hnej
          · rcases eq_or_ne l' l with rfl | hnel
            · rw [if_pos rfl]
              simp only [slotVal, h13, if_pos (And.intro hj' hl'), Option.some_bind,
                h13keep, hentry_self]
            · rw [if_neg (by simp [hnel])]
              simp only [slotVal, h13, if_pos (And.intro hj' hl'), Option.some_bind,
                h13keep, hea, hentry_ne l' hnel]
          · rw [if_neg (by simp [hnej])]
            simp only [slotVal, h13, if_pos (And.intro hj' hl'), Option.some_bind,
              h13keep' j']
            rcases hm : entryOf fs d a13 j' with _ | m
            · simp
            · have hmid : slotVal fs d ad (.dindMid j') = some m := by
                simp [slotVal, h13, hm, hj']
              have hnem : m ≠ a := by
                intro hc
                have := hI.hinj (.dindMid j') (.dindMid j0) a (hc ▸ hmid) ha
                simp at this
                exact hnej this
              simp only [Option.some_bind]
              exact entryOf_congr m l' (hkeep (.dindMid j') m hmid hnem)
        · rw [if_neg (by simp; omega)]
          simp [slotVal, Nat.not_lt.2 hl']
      · rw [if_neg (by simp; omega)]
        simp [slotVal, Nat.not_lt.2 hj']
  | tindTop =>
      rw [if_neg (by simp)]
      simp [slotVal, slotTop_zero hI.had14]
  | tindMid j' =>
      rw [if_neg (by simp)]
      simp [slotVal, slotTop_zero hI.had14]
  | tindMid2 j' l' =>
      rw [if_neg (by simp)]
      simp [slotVal, slotTop_zero hI.had14]
  | tindLeaf j' l' k' =>
      rw [if_neg (by simp)]
      simp [slotVal, slotTop_zero hI.had14]

/-- `balloc`'s disk changes never touch a mapped block. -/
theorem balloc_keep {fs : FS} {inum bbm itbl : Nat} {d : Disk} {ad : Addrs}
    (hI : WInv fs inum bbm itbl d ad) {rel : Nat} {db : Disk}
    (h : ext2fs_balloc fs d inum = some (rel, db)) :
    ∀ p r, slotVal fs d ad p = some r → db (fs.fp + r) = d (fs.fp + r) := by
  obtain ⟨hS, hNS, hge, hlt, hz, hfr, hbits⟩ := balloc_spec hI h
  intro p r hp
  have h1 := (hI.hstruct p r hp).1.2.2.2.1
  have h2 := hNS p r hp
  have hbA : bitmapAddr fs bbm = bbm + fs.fp := rfl
  exact hfr _ (by omega) (by omega)

/-- `balloc` never touches the group-descriptor block. -/
theorem balloc_desc {fs : FS} {inum bbm itbl : Nat} {d : Disk} {ad : Addrs}
    (hI : WInv fs inum bbm itbl d ad) {rel : Nat} {db : Disk}
    (h : ext2fs_balloc fs d inum = some (rel, db)) :
    db (descBlockno fs) = d (descBlockno fs) := by
  obtain ⟨hS, hNS, hge, hlt, hz, hfr, hbits⟩ := balloc_spec hI h
  have hbA : bitmapAddr fs bbm = bbm + fs.fp := rfl
  have hdb : descBlockno fs = fs.fp + 2 := rfl
  have h2 := hI.hbbm2
  have h3 := hS.2.2.1
  exact hfr _ (by omega) (by omega)

/-- Re-establishing the write invariant after one allocation step: one new
position `P` becomes mapped to the fresh block `vnew`, the bitmap loses
exactly the bit of `vnew`, and the descriptor block and slot 14 of `addrs`
are untouched. -/
theorem WInv_update {fs : FS} {inum bbm itbl : Nat} {d : Disk} {ad : Addrs}
    (hI : WInv fs inum bbm itbl d ad) {d' : Disk} {ad' : Addrs} {P : Pos} {vnew : Nat}
    (hchar : ∀ p, slotVal fs d' ad' p =
      if p = P then some vnew else slotVal fs d ad p)
    (hsafe : relSafe bbm (itRelOf fs itbl inum) vnew)
    (hNS : ∀ p r, slotVal fs d ad p = some r → r ≠ vnew)
    (hgf : groupFirst fs inum ≤ vnew)
    (hlt : vnew < groupFirst fs inum + scanRangeOf fs)
    (hbits : ∀ k2, bitFree (d' (bitmapAddr fs bbm)) k2 =
      if k2 = vnew - groupFirst fs inum then false
      else bitFree (d (bitmapAddr fs bbm)) k2)
    (hdesc' : d' (descBlockno fs) = d (descBlockno fs))
    (had14' : ad' 14 = 0) :
    WInv fs inum bbm itbl d' ad' := by
  refine ⟨hI.hipg, hI.hinum, hI.hbbm2, ?_, ?_, had14', ?_, ?_, ?_⟩
  · show bgBlockBitmap fs d' (groupNo fs inum) = bbm
    unfold bgBlockBitmap
    rw [hdesc']
    exact hI.hdesc
  · show bgInodeTable fs d' (groupNo fs inum) = itbl
    unfold bgInodeTable
    rw [hdesc']
    exact hI.hdesct
  · intro k hk hfree
    rw [hbits k] at hfree
    rcases eq_or_ne k (vnew - groupFirst fs inum) with rfl | hne
    · rw [if_pos rfl] at hfree
      exact absurd hfree (by simp)
    · rw [if_neg hne] at hfree
      exact hI.hfree k hk hfree
  · intro p r hp
    rw [hchar p] at hp
    rcases eq_or_ne p P with rfl | hne
    · rw [if_pos rfl, Option.some_inj] at hp
      subst hp
      refine ⟨hsafe, fun h1 h2 => ?_⟩
      rw [hbits, if_pos rfl]
    · rw [if_neg hne] at hp
      obtain ⟨hS, hB⟩ := hI.hstruct p r hp
      refine ⟨hS, fun h1 h2 => ?_⟩
      rw [hbits, if_neg (by have := hNS p r hp; omega)]
      exact hB h1 h2
  · intro p q r hp hq
    rw [hchar p] at hp
    rw [hchar q] at hq
    rcases eq_or_ne p P with rfl | hnp
    · rcases eq_or_ne q p with rfl | hnq
      · rfl
      · rw [if_pos rfl, Option.some_inj] at hp
        rw [if_neg hnq] at hq
        exact absurd hp.symm (hNS q r hq)
    · rcases eq_or_ne q P with rfl | hnq
      · rw [if_pos rfl, Option.some_inj] at hq
        rw [if_neg hnp] at hp
        exact absurd hq.symm (hNS p r hp)
      · rw [if_neg hnp] at hp
        rw [if_neg hnq] at hq
        exact hI.hinj p q r hp hq

/-- Distinct file blocks sit at distinct map positions. -/
theorem dataPos_inj {bn bn' : Nat} (h : dataPos bn = dataPos bn') : bn = bn' := by
  unfold dataPos at h
  split_ifs at h <;> simp at h <;> omega

/-- `dataPos` never produces a non-leaf (parent) position. -/
theorem dataPos_ne_parents (bn : Nat) :
    dataPos bn ≠ .indTop ∧ dataPos bn ≠ .dindTop ∧ ∀ j, dataPos bn ≠ .dindMid j := by
  unfold dataPos
  split_ifs <;> simp

/-- One `bmapTop` step on slot `s`: the invariant is preserved, the map
grows monotonically by (at most) the slot's own position, which ends up
mapped to the returned block, and no mapped block's contents change. -/
theorem bmapTop_step {fs : FS} {inum bbm itbl : Nat} {d : Disk} {ad : Addrs}
    (hI : WInv fs inum bbm itbl d ad) {s : Nat}
    (hs : s < 12 ∨ s = 12 ∨ s = 13) {a : Nat} {d1 : Disk} {ad1 : Addrs}
    (h : bmapTop fs d ad inum s = some (a, d1, ad1)) :
    WInv fs inum bbm itbl d1 ad1 ∧
    (∀ p r, slotVal fs d ad p = some r → slotVal fs d1 ad1 p = some r) ∧
    slotVal fs d1 ad1 (topPos s) = some a ∧
    (∀ p r, slotVal fs d ad p = some r → d1 (fs.fp + r) = d (fs.fp + r)) ∧
    d1 (descBlockno fs) = d (descBlockno fs) := by
  unfold bmapTop at h
  rcases eq_or_ne (ad s) 0 with haz | haz
  · rw [if_pos haz] at h
    rcases hb : ext2fs_balloc fs d inum with _ | ⟨rel, db⟩
    all_goals rw [hb] at h
    · exact absurd h (by simp)
    · rw [Option.some_inj, Prod.mk.injEq, Prod.mk.injEq] at h
      obtain ⟨h1, h2, h3⟩ := h
      subst h1 h2 h3
      obtain ⟨hS, hNS, hge, hlt, hz, hfr, hbits⟩ := balloc_spec hI hb
      have hfrm := balloc_keep hI hb
      have hz' : db (fs.fp + rel) = zeroBlock := by
        rw [Nat.add_comm]
        exact hz
      have hchar : ∀ p, slotVal fs db (setAddr ad s rel) p =
          if p = topPos s then some rel else slotVal fs d ad p := by
        intro p
        rw [slotVal_setAddr_top hs haz (by have := hS.1; omega) hz' p,
          slotVal_frame hfrm p]
      have hPold : slotVal fs d ad (topPos s) = none := by
        rcases hs with hc | hc | hc
        · simp [topPos, hc, slotVal, slotTop, haz]
        · subst hc
          simp [topPos, slotVal, slotTop, haz]
        · subst hc
          simp [topPos, slotVal, slotTop, haz]
      have had14' : setAddr ad s rel 14 = 0 := by
        show (if 14 = s then rel else ad 14) = 0
        rw [if_neg (by omega)]
        exact hI.had14
      refine ⟨WInv_update hI hchar hS hNS hge hlt hbits (balloc_desc hI hb) had14',
        ?_, ?_, hfrm, balloc_desc hI hb⟩
      · intro p r hp
        rcases eq_or_ne p (topPos s) with rfl | hne
        · rw [hPold] at hp
          cases hp
        · rw [hchar p, if_neg hne]
          exact hp
      · rw [hchar (topPos s), if_pos rfl]
  · rw [if_neg haz] at h
    rw [Option.some_inj, Prod.mk.injEq, Prod.mk.injEq] at h
    obtain ⟨h1, h2, h3⟩ := h
    subst h1 h2 h3
    refine ⟨hI, fun p r hp => hp, ?_, fun p r hp => rfl, rfl⟩
    rcases hs with hc | hc | hc
    · simp [topPos, hc, slotVal, slotTop, haz]
    · subst hc
      simp [topPos, slotVal, slotTop, haz]
    · subst hc
      simp [topPos, slotVal, slotTop, haz]

/-- One `bmapIndirect` step through an entry of the mapped parent block `a`
(at map position `P`, with `C` the position of entry `j`): the invariant is
preserved, the map grows monotonically by (at most) `C`, which ends up
mapped to the returned block, and no mapped block other than the parent
changes. The behaviour of `slotVal` under the entry write is passed in as
`hchar` (it differs per level); `hCold`/`hCread` relate `C` to the raw
entry. -/
theorem bmapIndirect_step {fs : FS} {inum bbm itbl : Nat} {dm : Disk} {adm : Addrs}
    (hIm : WInv fs inum bbm itbl dm adm) {P C : Pos} {a j : Nat}
    (ha : slotVal fs dm adm P = some a)
    (hchar : read32idx (dm (fs.fp + a)) j = 0 →
      ∀ e, relSafe bbm (itRelOf fs itbl inum) e →
      (∀ p r0, slotVal fs dm adm p = some r0 → r0 ≠ e) →
      ∀ db2 : Disk, (∀ x, x ≠ bitmapAddr fs bbm → x ≠ fs.fp + e → db2 x = dm x) →
        db2 (fs.fp + e) = zeroBlock →
        ∀ p, slotVal fs (writeBlock db2 (fs.fp + a) (set32idx (dm (fs.fp + a)) j e))
            adm p =
          if p = C then some e else slotVal fs dm adm p)
    (hCold : read32idx (dm (fs.fp + a)) j = 0 → slotVal fs dm adm C = none)
    (hCread : read32idx (dm (fs.fp + a)) j ≠ 0 →
      slotVal fs dm adm C = some (read32idx (dm (fs.fp + a)) j))
    {e0 : Nat} {d2 : Disk}
    (h : bmapIndirect fs dm inum (fs.fp + a) j = some (e0, d2)) :
    WInv fs inum bbm itbl d2 adm ∧
    (∀ p r, slotVal fs dm adm p = some r → slotVal fs d2 adm p = some r) ∧
    slotVal fs d2 adm C = some e0 ∧
    (∀ p r, slotVal fs dm adm p = some r → p ≠ P → d2 (fs.fp + r) = dm (fs.fp + r)) := by
  have hbA : bitmapAddr fs bbm = bbm + fs.fp := rfl
  have haS : relSafe bbm (itRelOf fs itbl inum) a := (hIm.hstruct P a ha).1
  simp only [bmapIndirect] at h
  rcases eq_or_ne (read32idx (dm (fs.fp + a)) j) 0 with hent | hent
  · rw [if_pos hent] at h
    rcases hal : ext2fs_balloc fs dm inum with _ | ⟨e, db2⟩
    all_goals simp only [hal] at h
    · exact absurd h (by simp)
    · rw [Option.some_inj, Prod.mk.injEq] at h
      obtain ⟨he0, hd2⟩ := h
      subst he0 hd2
      obtain ⟨hS, hNS, hge, hlt, hz, hfr, hbits⟩ := balloc_spec hIm hal
      have hfr' : ∀ x, x ≠ bitmapAddr fs bbm → x ≠ fs.fp + e → db2 x = dm x :=
        fun x hx1 hx2 => hfr x hx1 (by omega)
      have hz' : db2 (fs.fp + e) = zeroBlock := by
        rw [Nat.add_comm]
        exact hz
      have hch := hchar hent e hS hNS db2 hfr' hz'
      have hkeep2 : ∀ p0 r0, slotVal fs dm adm p0 = some r0 → r0 ≠ a →
          (writeBlock db2 (fs.fp + a) (set32idx (dm (fs.fp + a)) j e)) (fs.fp + r0) =
            dm (fs.fp + r0) := by
        intro p0 r0 h0 hner
        rw [writeBlock_ne _ _ _ _ (by omega)]
        have hb1 := (hIm.hstruct p0 r0 h0).1.2.2.2.1
        have hb2 := hNS p0 r0 h0
        exact hfr _ (by omega) (by omega)
      have hbits2 : ∀ k2,
          bitFree ((writeBlock db2 (fs.fp + a) (set32idx (dm (fs.fp + a)) j e))
            (bitmapAddr fs bbm)) k2 =
          if k2 = e - groupFirst fs inum then false
          else bitFree (dm (bitmapAddr fs bbm)) k2 := by
        intro k2
        have hne : bitmapAddr fs bbm ≠ fs.fp + a := by
          have := haS.2.2.2.1
          omega
        rw [writeBlock_ne _ _ _ _ hne]
        exact hbits k2
      have hdesc2 : (writeBlock db2 (fs.fp + a) (set32idx (dm (fs.fp + a)) j e))
          (descBlockno fs) = dm (descBlockno fs) := by
        have hne : descBlockno fs ≠ fs.fp + a := by
          have h2 := haS.2.2.1
          have hdb : descBlockno fs = fs.fp + 2 := rfl
          omega
        rw [writeBlock_ne _ _ _ _ hne]
        exact balloc_desc hIm hal
      refine ⟨WInv_update hIm hch hS hNS hge hlt hbits2 hdesc2 hIm.had14, ?_, ?_, ?_⟩
      · intro p r hp
        rcases eq_or_ne p C with rfl | hne
        · rw [hCold hent] at hp
          cases hp
        · rw [hch p, if_neg hne]
          exact hp
      · rw [hch C, if_pos rfl]
      · intro p r hp hne
        have hra : r ≠ a := by
          intro hc
          exact hne (hIm.hinj p P a (hc ▸ hp) ha)
        exact hkeep2 p r hp hra
  · rw [if_neg hent] at h
    rw [Option.some_inj, Prod.mk.injEq] at h
    obtain ⟨he0, hd2⟩ := h
    subst he0 hd2
    exact ⟨hIm, fun p r hp => hp, hCread hent, fun p r hp hne => rfl⟩

/-- One `ext2fs_bmap` call below the double-indirect boundary: the write
invariant is preserved, the map grows monotonically, `dataPos bn` ends up
mapped to the returned block, and the contents of every mapped data block
are unchanged. -/
theorem bmap_step {fs : FS} {inum bbm itbl : Nat} {d : Disk} {ad : Addrs}
    (hI : WInv fs inum bbm itbl d ad) {bn : Nat} (hbn : bn < 65804)
    {b : Nat} {d' : Disk} {ad' : Addrs}
    (h : ext2fs_bmap fs d ad inum bn = some (b, d', ad')) :
    WInv fs inum bbm itbl d' ad' ∧
    (∀ p r, slotVal fs d ad p = some r → slotVal fs d' ad' p = some r) ∧
    (∃ rb, b = rb + fs.fp ∧ slotVal fs d' ad' (dataPos bn) = some rb) ∧
    (∀ bn0 r, slotVal fs d ad (dataPos bn0) = some r →
      d' (fs.fp + r) = d (fs.fp + r)) := by
  rcases Nat.lt_or_ge bn 12 with h12 | h12
  · rcases htop : bmapTop fs d ad inum bn with _ | ⟨a, d1, ad1⟩
    · have hev : ext2fs_bmap fs d ad inum bn = none := by
        rw [ext2fs_bmap, if_pos (show bn < EXT2_NDIR_BLOCKS from h12)]
        simp only [htop]
      rw [hev] at h
      cases h
    · have hev : ext2fs_bmap fs d ad inum bn = some (a + fs.fp, d1, ad1) := by
        rw [ext2fs_bmap, if_pos (show bn < EXT2_NDIR_BLOCKS from h12)]
        simp only [htop]
      rw [hev, Option.some_inj, Prod.mk.injEq, Prod.mk.injEq] at h
      obtain ⟨hb', hd', had'⟩ := h
      subst hb' hd' had'
      obtain ⟨hI1, hmono1, htopmap, hkeep1, hdesc1⟩ := bmapTop_step hI (Or.inl h12) htop
      have hdp : dataPos bn = topPos bn := by
        simp [dataPos, topPos, h12]
      exact ⟨hI1, hmono1, ⟨a, rfl, by rw [hdp]; exact htopmap⟩,
        fun bn0 r h0 => hkeep1 _ r h0⟩
  rcases Nat.lt_or_ge bn 268 with h268 | h268
  · rcases htop : bmapTop fs d ad inum 12 with _ | ⟨a, dm, adm⟩
    · have hev : ext2fs_bmap fs d ad inum bn = none := by
        rw [ext2fs_bmap]
        simp only [EXT2_NDIR_BLOCKS, EXT2_INDIRECT_val, EXT2_IND_BLOCK]
        rw [if_neg (by omega), if_pos (by omega : bn - 12 < 256)]
        simp only [htop]
      rw [hev] at h
      cases h
    obtain ⟨hI1, hmono1, htopmap', hkeep1, hdesc1⟩ :=
      bmapTop_step hI (Or.inr (Or.inl rfl)) htop
    have htopmap : slotVal fs dm adm .indTop = some a := htopmap'
    have hj : bn - 12 < 256 := by omega
    rcases hbi : bmapIndirect fs dm inum (fs.fp + a) (bn - 12) with _ | ⟨e0, d2⟩
    · have hev : ext2fs_bmap fs d ad inum bn = none := by
        rw [ext2fs_bmap]
        simp only [EXT2_NDIR_BLOCKS, EXT2_INDIRECT_val, EXT2_IND_BLOCK]
        rw [if_neg (by omega), if_pos (by omega : bn - 12 < 256)]
        simp only [htop, hbi]
      rw [hev] at h
      cases h
    have hev : ext2fs_bmap fs d ad inum bn = some (e0 + fs.fp, d2, adm) := by
      rw [ext2fs_bmap]
      simp only [EXT2_NDIR_BLOCKS, EXT2_INDIRECT_val, EXT2_IND_BLOCK]
      rw [if_neg (by omega), if_pos (by omega : bn - 12 < 256)]
      simp only [htop, hbi]
    rw [hev, Option.some_inj, Prod.mk.injEq, Prod.mk.injEq] at h
    obtain ⟨hb', hd', had'⟩ := h
    subst hb' hd' had'
    obtain ⟨hI2, hmono2, hmap2, hkeep2⟩ :=
      bmapIndirect_step hI1 htopmap
        (fun hent e hS hNS db2 hfr hz =>
          slotVal_indEntry_alloc hI1 hj htopmap hS hNS hfr)
        (fun hent => by
          simp only [slotVal, if_pos hj, show slotTop adm 12 = some a from htopmap,
            Option.some_bind]
          simp [entryOf, hent])
        (fun hent => by
          simp only [slotVal, if_pos hj, show slotTop adm 12 = some a from htopmap,
            Option.some_bind]
          simp [entryOf, hent])
        hbi
    have hdp : dataPos bn = .indLeaf (bn - 12) := by
      unfold dataPos
      rw [if_neg (by omega), if_pos (by omega)]
    refine ⟨hI2, fun p r hp => hmono2 p r (hmono1 p r hp),
      ⟨e0, rfl, by rw [hdp]; exact hmap2⟩, ?_⟩
    intro bn0 r h0
    have hm1 := hmono1 (dataPos bn0) r h0
    have hno := dataPos_ne_parents bn0
    rw [hkeep2 (dataPos bn0) r hm1 hno.1, hkeep1 (dataPos bn0) r h0]
  · rcases htop : bmapTop fs d ad inum 13 with _ | ⟨a, dm, adm⟩
    · have hev : ext2fs_bmap fs d ad inum bn = none := by
        rw [ext2fs_bmap]
        simp only [EXT2_NDIR_BLOCKS, EXT2_INDIRECT_val, EXT2_DINDIRECT_val,
          EXT2_IND_BLOCK, EXT2_DIND_BLOCK]
        rw [if_neg (by omega), if_neg (by omega : ¬ (bn - 12 < 256)),
          if_pos (by omega : bn - 12 - 256 < 65536)]
        simp only [htop]
      rw [hev] at h
      cases h
    obtain ⟨hI1, hmono1, htopmap', hkeep1, hdesc1⟩ :=
      bmapTop_step hI (Or.inr (Or.inr rfl)) htop
    have htopmap : slotVal fs dm adm .dindTop = some a := htopmap'
    have hj0 : (bn - 268) / 256 < 256 := by omega
    have hl : (bn - 268) % 256 < 256 := by omega
    rcases hmid : bmapIndirect fs dm inum (fs.fp + a) ((bn - 268) / 256)
      with _ | ⟨amid, d2⟩
    · have hev : ext2fs_bmap fs d ad inum bn = none := by
        rw [ext2fs_bmap]
        simp only [EXT2_NDIR_BLOCKS, EXT2_INDIRECT_val, EXT2_DINDIRECT_val,
          EXT2_IND_BLOCK, EXT2_DIND_BLOCK]
        rw [if_neg (by omega), if_neg (by omega : ¬ (bn - 12 < 256)),
          if_pos (by omega : bn - 12 - 256 < 65536),
          (by omega : bn - 12 - 256 = bn - 268)]
        simp only [htop, hmid]
      rw [hev] at h
      cases h
    obtain ⟨hI2, hmono2, hmidmap, hkeep2⟩ :=
      bmapIndirect_step hI1 htopmap
        (fun hent e hS hNS db2 hfr hz =>
          slotVal_dindTopEntry_alloc hI1 hj0 htopmap hent hS hNS hfr hz)
        (fun hent => by
          simp only [slotVal, if_pos hj0, show slotTop adm 13 = some a from htopmap,
            Option.some_bind]
          simp [entryOf, hent])
        (fun hent => by
          simp only [slotVal, if_pos hj0, show slotTop adm 13 = some a from htopmap,
            Option.some_bind]
          simp [entryOf, hent])
        hmid
    obtain ⟨a13, h13, hea⟩ : ∃ x, slotTop adm 13 = some x ∧
        entryOf fs d2 x ((bn - 268) / 256) = some amid := by
      have hm := hmidmap
      simp only [slotVal, if_pos hj0] at hm
      rcases h13 : slotTop adm 13 with _ | x
      · rw [h13] at hm
        simp at hm
      · rw [h13] at hm
        simp only [Option.some_bind] at hm
        exact ⟨x, rfl, hm⟩
    rcases hleaf : bmapIndirect fs d2 inum (fs.fp + amid) ((bn - 268) % 256)
      with _ | ⟨e0, d3⟩
    · have hev : ext2fs_bmap fs d ad inum bn = none := by
        rw [ext2fs_bmap]
        simp only [EXT2_NDIR_BLOCKS, EXT2_INDIRECT_val, EXT2_DINDIRECT_val,
          EXT2_IND_BLOCK, EXT2_DIND_BLOCK]
        rw [if_neg (by omega), if_neg (by omega : ¬ (bn - 12 < 256)),
          if_pos (by omega : bn - 12 - 256 < 65536),
          (by omega : bn - 12 - 256 = bn - 268)]
        simp only [htop, hmid, hleaf]
      rw [hev] at h
      cases h
    obtain ⟨hI3, hmono3, hleafmap, hkeep3⟩ :=
      bmapIndirect_step hI2 hmidmap
        (fun hent e hS hNS db2 hfr hz =>
          slotVal_dindMidEntry_alloc hI2 hj0 hl hmidmap hS hNS hfr)
        (fun hent => by
          have hsv : slotVal fs d2 adm (.dindLeaf ((bn - 268) / 256) ((bn - 268) % 256)) =
              (slotTop adm 13).bind fun r =>
                (entryOf fs d2 r ((bn - 268) / 256)).bind fun m =>
                  entryOf fs d2 m ((bn - 268) % 256) := by
            simp [slotVal, hj0, hl]
          rw [hsv, h13, Option.some_bind, hea, Option.some_bind]
          simp [entryOf, hent])
        (fun hent => by
          have hsv : slotVal fs d2 adm (.dindLeaf ((bn - 268) / 256) ((bn - 268) % 256)) =
              (slotTop adm 13).bind fun r =>
                (entryOf fs d2 r ((bn - 268) / 256)).bind fun m =>
                  entryOf fs d2 m ((bn - 268) % 256) := by
            simp [slotVal, hj0, hl]
          rw [hsv, h13, Option.some_bind, hea, Option.some_bind]
          simp [entryOf, hent])
        hleaf
    have hev : ext2fs_bmap fs d ad inum bn = some (e0 + fs.fp, d3, adm) := by
      rw [ext2fs_bmap]
      simp only [EXT2_NDIR_BLOCKS, EXT2_INDIRECT_val, EXT2_DINDIRECT_val,
        EXT2_IND_BLOCK, EXT2_DIND_BLOCK]
      rw [if_neg (by omega), if_neg (by omega : ¬ (bn - 12 < 256)),
        if_pos (by omega : bn - 12 - 256 < 65536),
        (by omega : bn - 12 - 256 = bn - 268)]
      simp only [htop, hmid, hleaf]
    rw [hev, Option.some_inj, Prod.mk.injEq, Prod.mk.injEq] at h
    obtain ⟨hb', hd', had'⟩ := h
    subst hb' hd' had'
    have hdp : dataPos bn = .dindLeaf ((bn - 268) / 256) ((bn - 268) % 256) := by
      unfold dataPos
      rw [if_neg (by omega), if_neg (by omega), if_pos (by omega)]
    refine ⟨hI3, fun p r hp => hmono3 p r (hmono2 p r (hmono1 p r hp)),
      ⟨e0, rfl, by rw [hdp]; exact hleafmap⟩, ?_⟩
    intro bn0 r h0
    have hm1 := hmono1 (dataPos bn0) r h0
    have hm2 := hmono2 (dataPos bn0) r hm1
    have hno := dataPos_ne_parents bn0
    rw [hkeep3 (dataPos bn0) r hm2 (hno.2.2 _), hkeep2 (dataPos bn0) r hm1 hno.2.1,
      hkeep1 (dataPos bn0) r h0]

/-- `dataPos` never produces a chain-interior position. -/
theorem dataPos_not_chain (bn : Nat) :
    dataPos bn ≠ .indTop ∧ dataPos bn ≠ .dindTop ∧ (∀ j, dataPos bn ≠ .dindMid j) ∧
    dataPos bn ≠ .tindTop ∧ (∀ j, dataPos bn ≠ .tindMid j) ∧
    ∀ j l, dataPos bn ≠ .tindMid2 j l := by
  unfold dataPos
  split_ifs <;> simp

/-- Overwriting a mapped data block's contents changes no map entry. -/
theorem slotVal_dataWrite {fs : FS} {inum bbm itbl : Nat} {d : Disk} {ad : Addrs}
    (hI : WInv fs inum bbm itbl d ad) {bn0 rb : Nat}
    (hmap : slotVal fs d ad (dataPos bn0) = some rb) (blk : Block) :
    ∀ p, slotVal fs (writeBlock d (rb + fs.fp) blk) ad p = slotVal fs d ad p := by
  apply slotVal_frame_ne (dataPos_not_chain bn0)
  intro p r hp hne
  have hr : r ≠ rb := by
    intro hc
    exact hne (hI.hinj p (dataPos bn0) rb (hc ▸ hp) hmap)
  rw [writeBlock_ne _ _ _ _ (by omega)]

/-- A data-block overwrite preserves the write invariant. -/
theorem WInv_dataWrite {fs : FS} {inum bbm itbl : Nat} {d : Disk} {ad : Addrs}
    (hI : WInv fs inum bbm itbl d ad) {bn0 rb : Nat}
    (hmap : slotVal fs d ad (dataPos bn0) = some rb) (blk : Block) :
    WInv fs inum bbm itbl (writeBlock d (rb + fs.fp) blk) ad := by
  have hS := (hI.hstruct _ rb hmap).1
  have hbmA : bitmapAddr fs bbm = bbm + fs.fp := rfl
  have hdesc : writeBlock d (rb + fs.fp) blk (descBlockno fs) = d (descBlockno fs) := by
    have h2 := hS.2.2.1
    have hdb : descBlockno fs = fs.fp + 2 := rfl
    rw [writeBlock_ne _ _ _ _ (by omega)]
  have hbm : writeBlock d (rb + fs.fp) blk (bitmapAddr fs bbm) =
      d (bitmapAddr fs bbm) := by
    have h2 := hS.2.2.2.1
    rw [writeBlock_ne _ _ _ _ (by omega)]
  have hsv := slotVal_dataWrite hI hmap blk
  refine ⟨hI.hipg, hI.hinum, hI.hbbm2, ?_, ?_, hI.had14, ?_, ?_, ?_⟩
  · show bgBlockBitmap fs _ (groupNo fs inum) = bbm
    unfold bgBlockBitmap
    rw [hdesc]
    exact hI.hdesc
  · show bgInodeTable fs _ (groupNo fs inum) = itbl
    unfold bgInodeTable
    rw [hdesc]
    exact hI.hdesct
  · intro k hk hfree
    rw [hbm] at hfree
    exact hI.hfree k hk hfree
  · intro p r hp
    rw [hsv p] at hp
    obtain ⟨h1, h2⟩ := hI.hstruct p r hp
    exact ⟨h1, fun ha hb => by rw [hbm]; exact h2 ha hb⟩
  · intro p q r hp hq
    rw [hsv p] at hp
    rw [hsv q] at hq
    exact hI.hinj p q r hp hq

theorem byteAt_setBytes_in (b : Block) (off : Nat) (src : Nat → Nat)
    (srcOff m k : Nat) (h : off ≤ k ∧ k < off + m) :
    byteAt (setBytes b off src srcOff m) k = src (srcOff + (k - off)) % 256 := by
  simp only [byteAt, setBytes, if_pos h]
  omega

theorem byteAt_setBytes_out (b : Block) (off : Nat) (src : Nat → Nat)
    (srcOff m k : Nat) (h : k < off ∨ off + m ≤ k) :
    byteAt (setBytes b off src srcOff m) k = byteAt b k := by
  simp only [byteAt, setBytes]
  rw [if_neg (by omega)]

/-- The write loop under the invariant: it preserves the invariant, grows
the map monotonically, leaves every previously mapped byte below `off`
unchanged, and maps every written byte so that it reads back as the source
byte. -/
theorem writeLoop_spec {fs : FS} {inum bbm itbl : Nat} (src : Nat → Nat) :
    ∀ rem d ad off srcOff d1 ad1,
      WInv fs inum bbm itbl d ad →
      off + rem ≤ 67383296 →
      writeLoop fs d ad inum off rem src srcOff = some (d1, ad1) →
      WInv fs inum bbm itbl d1 ad1 ∧
      (∀ p r, slotVal fs d ad p = some r → slotVal fs d1 ad1 p = some r) ∧
      (∀ a r, a < off → slotVal fs d ad (dataPos (a / EXT2_BSIZE)) = some r →
        byteAt (d1 (fs.fp + r)) (a % EXT2_BSIZE) =
          byteAt (d (fs.fp + r)) (a % EXT2_BSIZE)) ∧
      (∀ i < rem, ∃ rb,
        slotVal fs d1 ad1 (dataPos ((off + i) / EXT2_BSIZE)) = some rb ∧
        byteAt (d1 (fs.fp + rb)) ((off + i) % EXT2_BSIZE) = src (srcOff + i) % 256) := by
  intro rem
  induction rem using Nat.strong_induction_on with
  | _ rem ih =>
    intro d ad off srcOff d1 ad1 hI hbound hw
    rw [writeLoop] at hw
    rcases eq_or_ne rem 0 with rfl | hrem
    · simp only [dif_pos rfl, Option.some_inj, Prod.mk.injEq] at hw
      obtain ⟨rfl, rfl⟩ := hw
      exact ⟨hI, fun p r hp => hp, fun a r ha hm => rfl,
        fun i hi => absurd hi (by omega)⟩
    · rw [dif_neg hrem] at hw
      rcases hbm : ext2fs_bmap fs d ad inum (off / EXT2_BSIZE) with _ | ⟨b, dB, adB⟩
      all_goals simp only [hbm] at hw
      · exact absurd hw (by simp)
      · have hB1024 : EXT2_BSIZE = 1024 := rfl
        have hbs : (0 : Nat) < EXT2_BSIZE := by norm_num [EXT2_BSIZE]
        have hmod : off % EXT2_BSIZE < EXT2_BSIZE := Nat.mod_lt _ hbs
        have hbn : off / EXT2_BSIZE < 65804 := by
          rw [hB1024]
          omega
        obtain ⟨hIB, hmonoB, ⟨rb, hbrb, hrbmap⟩, hkeepB⟩ := bmap_step hI hbn hbm
        subst hbrb
        set m := min rem (EXT2_BSIZE - off % EXT2_BSIZE) with hm
        have hm1 : 0 < m := lt_min (Nat.pos_of_ne_zero hrem) (by omega)
        have hmle : m ≤ rem := min_le_left _ _
        have hmb : off % EXT2_BSIZE + m ≤ EXT2_BSIZE := by
          have := min_le_right rem (EXT2_BSIZE - off % EXT2_BSIZE)
          omega
        set blk := setBytes (dB (rb + fs.fp)) (off % EXT2_BSIZE) src srcOff m
          with hblk
        set W := writeBlock dB (rb + fs.fp) blk with hWdef
        have hIW : WInv fs inum bbm itbl W adB := WInv_dataWrite hIB hrbmap blk
        have hsvW := slotVal_dataWrite hIB hrbmap blk
        obtain ⟨hI1, hmono1, hpre1, hwr1⟩ :=
          ih (rem - m) (by omega) W adB (off + m) (srcOff + m) d1 ad1 hIW
            (by omega) hw
        have haddr : fs.fp + rb = rb + fs.fp := Nat.add_comm _ _
        refine ⟨hI1, ?_, ?_, ?_⟩
        · intro p r hp
          exact hmono1 p r (by rw [hsvW p]; exact hmonoB p r hp)
        · intro a r ha hmapA
          have hmB := hmonoB _ r hmapA
          have hmW : slotVal fs W adB (dataPos (a / EXT2_BSIZE)) = some r := by
            rw [hsvW]
            exact hmB
          have h1 := hpre1 a r (by omega) hmW
          have h2 : byteAt (W (fs.fp + r)) (a % EXT2_BSIZE) =
              byteAt (dB (fs.fp + r)) (a % EXT2_BSIZE) := by
            rcases eq_or_ne (a / EXT2_BSIZE) (off / EXT2_BSIZE) with hsame | hdiff
            · have hrrb : r = rb := by
                have hx := hmB
                rw [hsame, hrbmap] at hx
                exact (Option.some_inj.1 hx).symm
              subst hrrb
              have hax : a % EXT2_BSIZE < off % EXT2_BSIZE := by
                rw [hB1024]
                rw [hB1024] at hsame
                omega
              rw [haddr, hWdef, writeBlock_at, hblk,
                byteAt_setBytes_out _ _ _ _ _ _ (Or.inl hax)]
            · have hr : r ≠ rb := by
                intro hc
                exact hdiff (dataPos_inj (hIB.hinj _ _ rb (hc ▸ hmB) hrbmap))
              rw [hWdef, writeBlock_ne _ _ _ _ (by omega)]
          have h3 := hkeepB (a / EXT2_BSIZE) r hmapA
          rw [h1, h2, h3]
        · intro i hi
          rcases Nat.lt_or_ge i m with him | him
          · have hdm := div_mod_chunk off i EXT2_BSIZE hbs (by omega)
            have hmapW : slotVal fs W adB (dataPos (off / EXT2_BSIZE)) = some rb := by
              rw [hsvW]
              exact hrbmap
            have hfin := hmono1 _ rb hmapW
            refine ⟨rb, by rw [hdm.1]; exact hfin, ?_⟩
            have hbyte1 := hpre1 (off + i) rb (by omega)
              (by rw [hdm.1]; exact hmapW)
            rw [hbyte1, hdm.2, haddr, hWdef, writeBlock_at, hblk,
              byteAt_setBytes_in _ _ _ _ _ _ ⟨by omega, by omega⟩,
              (by omega : off % EXT2_BSIZE + i - off % EXT2_BSIZE = i)]
          · obtain ⟨rb2, hmap2, hbyte2⟩ := hwr1 (i - m) (by omega)
            rw [(by omega : off + i = off + m + (i - m)),
              (by omega : srcOff + i = srcOff + m + (i - m))]
            exact ⟨rb2, hmap2, hbyte2⟩

/-- `ext2fs_iupdate` writes only the inode-table block, which under the
invariant collides with no mapped block: the map and all mapped contents
survive. -/
theorem iupdate_keep {fs : FS} {inum bbm itbl : Nat} {d : Disk} {ad : Addrs}
    (hI : WInv fs inum bbm itbl d ad) {typ nlink size : Nat} {d2 : Disk}
    (h : ext2fs_iupdate fs d ad typ nlink size inum = some d2) :
    (∀ p, slotVal fs d2 ad p = slotVal fs d ad p) ∧
    (∀ p r, slotVal fs d ad p = some r → d2 (fs.fp + r) = d (fs.fp + r)) := by
  unfold ext2fs_iupdate at h
  rcases Nat.lt_or_ge EXT2_MAX_INODE_SIZE fs.sb.s_inode_size with hsz | hsz
  · rw [if_pos hsz] at h
    cases h
  · rw [if_neg (Nat.not_lt.2 hsz), Option.some_inj] at h
    have hbno : inodeBlockno fs d inum = itRelOf fs itbl inum + fs.fp := by
      unfold inodeBlockno itRelOf
      rw [hI.hdesct]
    have hkeep : ∀ p r, slotVal fs d ad p = some r →
        d2 (fs.fp + r) = d (fs.fp + r) := by
      intro p r hp
      have hit := (hI.hstruct p r hp).1.2.2.2.2
      rw [← h, hbno, writeBlock_ne _ _ _ _ (by omega)]
    exact ⟨slotVal_frame hkeep, hkeep⟩

/-- C2: on a fresh regular file (empty `addrs`, size 0) satisfying the
write-pass invariant, a successful `ext2fs_writei` of `N` bytes at offset 0
followed by `ext2fs_readi` of `N` bytes at offset 0 returns exactly the
`N` written bytes (each reduced modulo 256, as the byte copy does), with
the read returning `N` and changing nothing. Success itself bounds `N` by
the (32-bit-wrapped) size limit, so every successful write up to the
boundary round-trips. -/
theorem c2_write_read_roundtrip {fs : FS} {inum bbm itbl : Nat} {d : Disk}
    (N nlink : Nat) (src : Nat → Nat) (hN : N < U32)
    (hI : WInv fs inum bbm itbl d (fun _ => 0))
    {r : Nat} {d' : Disk} {ad' : Addrs} {sz' : Nat}
    (h : ext2fs_writei fs d (fun _ => 0) T_FILE nlink 0 inum 0 N src =
      .ok r d' ad' sz') :
    r = N ∧
    ext2fs_readi fs d' ad' T_FILE sz' inum 0 N =
      .ok N ((List.range N).map (fun i => src i % 256)) d' ad' := by
  have hU : U32 = 4294967296 := rfl
  have hmod : (0 + N) % U32 = N := by
    rw [Nat.zero_add]
    exact Nat.mod_eq_of_lt hN
  have hconst : EXT2_MAXFILE * EXT2_BSIZE % U32 = 67383296 := by
    norm_num [EXT2_MAXFILE, EXT2_BSIZE, EXT2_NDIR_BLOCKS, EXT2_INDIRECT,
      EXT2_DINDIRECT, EXT2_TINDIRECT, U32]
  rw [ext2fs_writei, if_neg (by decide), if_neg (by omega)] at h
  by_cases hlim : EXT2_MAXFILE * EXT2_BSIZE % U32 < (0 + N) % U32
  · rw [if_pos hlim] at h
    cases h
  rw [if_neg hlim] at h
  rw [hmod, hconst] at hlim
  have hNlim : N ≤ 67383296 := by omega
  rcases hwl : writeLoop fs d (fun _ => 0) inum 0 N src 0 with _ | ⟨d1, ad1⟩
  all_goals simp only [hwl] at h
  · cases h
  obtain ⟨hI1, hmono1, hpre1, hwr1⟩ :=
    writeLoop_spec src N d (fun _ => 0) 0 0 d1 ad1 hI (by omega) hwl
  have hreadi : ∀ dF, (∀ p, slotVal fs dF ad1 p = slotVal fs d1 ad1 p) →
      (∀ p r0, slotVal fs d1 ad1 p = some r0 →
        dF (fs.fp + r0) = d1 (fs.fp + r0)) →
      ext2fs_readi fs dF ad1 T_FILE (0 + N) inum 0 N =
        .ok N ((List.range N).map (fun i => src i % 256)) dF ad1 := by
    intro dF hsv hkp
    rw [ext2fs_readi, if_neg (by decide), if_neg (by omega)]
    have hn1 : (if 0 + N < (0 + N) % U32 then 0 + N - 0 else N) = N := by
      rw [hmod, if_neg (by omega)]
    simp only [hn1]
    have hmap : ∀ i < N,
        (slotVal fs dF ad1 (dataPos ((0 + i) / EXT2_BSIZE))).isSome := by
      intro i hi
      obtain ⟨rb, hrb, _⟩ := hwr1 i hi
      rw [hsv, hrb]
      rfl
    rw [readLoop_pure fs dF ad1 inum N 0 hmap]
    have hbytes : (List.range N).map (fun i => fileByteD fs dF ad1 (0 + i)) =
        (List.range N).map (fun i => src i % 256) := by
      apply List.map_congr_left
      intro i hi
      rw [List.mem_range] at hi
      obtain ⟨rb, hrb, hbyte⟩ := hwr1 i hi
      rw [fileByteD, hsv]
      simp only [hrb]
      have haddr : rb + fs.fp = fs.fp + rb := Nat.add_comm _ _
      rw [haddr, hkp _ rb hrb, hbyte, Nat.zero_add]
    rw [hbytes]
  by_cases hN0 : 0 < N ∧ 0 < 0 + N
  · rw [if_pos hN0] at h
    rcases hiu : ext2fs_iupdate fs d1 ad1 T_FILE nlink (0 + N) inum with _ | d2
    all_goals simp only [hiu] at h
    · cases h
    obtain ⟨hsv2, hkp2⟩ := iupdate_keep hI1 hiu
    injection h with e1 e2 e3 e4
    subst e1 e2 e3 e4
    exact ⟨rfl, hreadi d2 hsv2 hkp2⟩
  · rw [if_neg hN0] at h
    injection h with e1 e2 e3 e4
    subst e1 e2 e3 e4
    have hNz : N = 0 := by omega
    subst hNz
    refine ⟨rfl, ?_⟩
    have := hreadi d1 (fun p => rfl) (fun p r0 hp => rfl)
    rw [Nat.zero_add] at this
    exact this

/-- On an empty `addrs` array every map position is unmapped. -/
theorem slotVal_adZero (fs : FS) (d : Disk) :
    ∀ p, slotVal fs d (fun _ => 0) p = none := by
  intro p
  cases p <;> simp [slotVal, slotTop]

/-- Witness for C2: on the concrete one-group volume, writing the single
byte 65 at offset 0 of a fresh file succeeds and reading one byte back
returns exactly `[65]`. -/
theorem c2_witness :
    (1 : Nat) < U32 ∧
    WInv fsW 1 3 4 dW2 (fun _ => 0) ∧
    ext2fs_writei fsW dW2 (fun _ => 0) T_FILE 1 0 1 0 1 (fun _ => 65) =
      .ok 1 dFin adC2 1 ∧
    ext2fs_readi fsW dFin adC2 T_FILE 1 1 0 1 = .ok 1 [65] dFin adC2 := by
  have hWInv : WInv fsW 1 3 4 dW2 (fun _ => 0) := by
    refine ⟨by decide, by decide, by decide, by decide, by decide, rfl, ?_, ?_, ?_⟩
    · intro k hk hfree
      have h8 : scanRangeOf fsW = 8 := rfl
      rw [h8] at hk
      interval_cases k <;> (revert hfree; simp only [relSafe]; decide)
    · intro p r hp
      rw [slotVal_adZero fsW dW2] at hp
      cases hp
    · intro p q r hp hq
      rw [slotVal_adZero fsW dW2] at hp
      cases hp
  have hbmap : ext2fs_bmap fsW dW2 (fun _ => 0) 1 (0 / EXT2_BSIZE) =
      some (1, dBal, adC2) := rfl
  have hwl : writeLoop fsW dW2 (fun _ => 0) 1 0 1 (fun _ => 65) 0 =
      some (dWr, adC2) := by
    rw [writeLoop, dif_neg (by decide)]
    simp only [hbmap]
    rw [writeLoop, dif_pos (by decide)]
    rfl
  have hiu : ext2fs_iupdate fsW dWr adC2 T_FILE 1 (0 + 1) 1 = some dFin := rfl
  have hE : ext2fs_writei fsW dW2 (fun _ => 0) T_FILE 1 0 1 0 1 (fun _ => 65) =
      .ok 1 dFin adC2 1 := by
    rw [ext2fs_writei, if_neg (by decide), if_neg (by decide), if_neg (by decide)]
    simp only [hwl]
    rw [if_pos (by decide)]
    simp only [hiu]
  refine ⟨by norm_num [U32], hWInv, hE, ?_⟩
  have h := (c2_write_read_roundtrip 1 1 (fun _ => 65) (by norm_num [U32])
    hWInv hE).2
  simpa using h

/-! ### C9: the dirent-format mismatch between `create`'s dot links and
`namei`'s directory parser -/

/-- C9: `create(path, T_DIR, ...)` links "." and ".." into the fresh
directory through `ip->iops->dirlink = ext2fs_dirlink`, producing the two
`ext2_dir_entry_2` records of `dotDirBytes` (and bumps only the parent's
`nlink`, leaving the child's at 1, per the `dp->nlink++` / "No ip->nlink++"
branch). The ext2 reader that wrote them (`ext2fs_dirlookup`'s field
decoding) finds "." at offset 0 and ".." at offset 12. But `namei`
resolves paths with fs.c's legacy `dirlookup`, which decodes 16-byte
`struct dirent` slots: at its first slot it sees a nonzero `inum` (so the
entry is not skipped) whose 14-byte name field starts at byte 2 — inside
the ext2 `inode` field — so `namecmp` against both "." and ".." returns
46 ≠ 0 and neither dot entry is ever found. -/
theorem c9_mkdir_dirent_format_mismatch (c p : Nat) (hc0 : 0 < c)
    (hc : c < 65536) (hp : p < U32) :
    ext2entryInode (dotDirBytes c p) 0 = c ∧
    ext2entryRecLen (dotDirBytes c p) 0 = 12 ∧
    ext2fs_namecmp [46] (ext2entryName (dotDirBytes c p) 0) = 0 ∧
    ext2entryInode (dotDirBytes c p) 12 = p ∧
    ext2fs_namecmp [46, 46] (ext2entryName (dotDirBytes c p) 12) = 0 ∧
    legacyDirentInum (dotDirBytes c p) 0 = c ∧
    legacyDirentInum (dotDirBytes c p) 0 ≠ 0 ∧
    namecmp [46] (legacyDirentName (dotDirBytes c p) 0) = 46 ∧
    namecmp [46, 46] (legacyDirentName (dotDirBytes c p) 0) = 46 := by
  have hU : U32 = 4294967296 := rfl
  have h1 : ext2_dirent_size 1 = 12 := by decide
  have h2 : ext2_dirent_size 2 = 12 := by decide
  have hc1 : c / 65536 % 256 = 0 := by omega
  have hc2 : c / 16777216 % 256 = 0 := by omega
  have hL : dotDirBytes c p =
      [c % 256, c / 256 % 256, c / 65536 % 256, c / 16777216 % 256,
       12, 0, 1, 0, 46, 0, 0, 0,
       p % 256, p / 256 % 256, p / 65536 % 256, p / 16777216 % 256,
       12, 0, 2, 0, 46, 46, 0, 0] := by
    simp [dotDirBytes, ext2DirentBytes, le32, le16, h1, h2]
  have hnameDot : ext2entryName (dotDirBytes c p) 0 = [46] := by
    rw [hL]
    simp [ext2entryName, ext2entryNameLen, byteL, EXT2_NAME_LEN, List.range_succ]
  have hnameDotDot : ext2entryName (dotDirBytes c p) 12 = [46, 46] := by
    rw [hL]
    simp [ext2entryName, ext2entryNameLen, byteL, EXT2_NAME_LEN, List.range_succ]
  have hlegname : legacyDirentName (dotDirBytes c p) 0 =
      [0, 0, 12, 0, 1, 0, 46, 0, 0, 0,
       p % 256, p / 256 % 256, p / 65536 % 256, p / 16777216 % 256] := by
    rw [hL]
    simp [legacyDirentName, byteL, DIRSIZ, hc1, hc2, List.range_succ]
  refine ⟨?_, ?_, ?_, ?_, ?_, ?_, ?_, ?_, ?_⟩
  · rw [hL]
    simp [ext2entryInode, byteL]
    omega
  · rw [hL]
    simp [ext2entryRecLen, byteL]
  · rw [hnameDot]
    decide
  · rw [hL]
    simp [ext2entryInode, byteL]
    omega
  · rw [hnameDotDot]
    decide
  · rw [hL]
    simp [legacyDirentInum, byteL]
    omega
  · rw [hL]
    simp [legacyDirentInum, byteL]
    omega
  · rw [hlegname]
    rfl
  · rw [hlegname]
    rfl

/-- Witness for C9: child inode 12, parent inode 2 — the ext2 decoding
finds ".", the legacy decoding `namei` uses does not. -/
theorem c9_witness :
    (0 : Nat) < 12 ∧ (12 : Nat) < 65536 ∧ (2 : Nat) < U32 ∧
    ext2fs_namecmp [46] (ext2entryName (dotDirBytes 12 2) 0) = 0 ∧
    namecmp [46] (legacyDirentName (dotDirBytes 12 2) 0) = 46 := by
  have h := c9_mkdir_dirent_format_mismatch 12 2 (by decide) (by decide)
    (by norm_num [U32])
  exact ⟨by decide, by decide, by norm_num [U32], h.2.2.1, h.2.2.2.2.2.2.2.1⟩

/-! ### C10: `O_CREATE` on an existing inode -/

/-- C10: when `open_file` with `O_CREATE` reaches `create`'s found-entry
branch on an existing inode, the open succeeds and returns that inode
exactly when its on-disk mode decodes to a regular file: `S_ISREG` makes
`ext2fs_ilock` assign `T_FILE`, the branch returns the inode, and the
opener sees the stored size and link count unchanged (the whole path
performs no write, hence no truncation, as the definitions record); when
the mode decodes to a directory (`S_ISDIR`, or the quirk `i_mode == T_DIR`)
or to a character device (`S_ISCHR`), `create` returns null and
`open_file` returns `-1`. -/
theorem c10_ocreate_existing (fs : FS) (d : Disk) (oldType inum : Nat)
    (fileok fdok : Bool) (fd : Nat)
    (hsz : fs.sb.s_inode_size ≤ EXT2_MAX_INODE_SIZE) :
    (S_ISREG (slotMode fs d inum) = true → fileok = true → fdok = true →
      open_file_create fs d oldType inum fileok fdok fd =
        .ok fd ⟨T_FILE, slotNlink fs d inum, slotSize fs d inum⟩) ∧
    (S_ISDIR (slotMode fs d inum) = true ∨ slotMode fs d inum = T_DIR ∨
        S_ISCHR (slotMode fs d inum) = true →
      open_file_create fs d oldType inum fileok fdok fd = .err) := by
  constructor
  · intro hreg hfo hdo
    have hmask : slotMode fs d inum &&& S_IFMT = S_IFREG := by
      simpa [S_ISREG, beq_iff_eq] using hreg
    have hdir : S_ISDIR (slotMode fs d inum) = false := by
      simp only [S_ISDIR, hmask]
      decide
    have hne1 : (slotMode fs d inum == T_DIR) = false := by
      rw [beq_eq_false_iff_ne]
      intro hm
      rw [hm] at hmask
      exact absurd hmask (by decide)
    have htype : ilockTypeOf fs d oldType inum = T_FILE := by
      simp only [ilockTypeOf, hdir, hne1, hreg, Bool.or_self, Bool.false_or,
        if_neg, if_pos, Bool.false_eq_true, if_false, if_true]
    have hilock : ext2fs_ilock fs d oldType inum =
        .ok ⟨T_FILE, slotNlink fs d inum, slotSize fs d inum⟩ := by
      unfold ext2fs_ilock
      rw [if_neg (by omega), htype, if_neg (by decide)]
    have hcf : create_found fs d T_FILE oldType inum =
        .ok ⟨T_FILE, slotNlink fs d inum, slotSize fs d inum⟩ := by
      simp only [create_found, hilock]
      simp
    simp only [open_file_create, hcf, hfo, hdo, Bool.and_self, if_true]
  · intro hbad
    have htype : ilockTypeOf fs d oldType inum = T_DIR ∨
        ilockTypeOf fs d oldType inum = T_DEV := by
      rcases hbad with hd | h1 | hc
      · left
        simp [ilockTypeOf, hd]
      · left
        have : (slotMode fs d inum == T_DIR) = true := by
          rw [beq_iff_eq]
          exact h1
        simp [ilockTypeOf, this]
      · right
        have hmask : slotMode fs d inum &&& S_IFMT = S_IFCHR := by
          simpa [S_ISCHR, beq_iff_eq] using hc
        have hdir : S_ISDIR (slotMode fs d inum) = false := by
          simp only [S_ISDIR, hmask]
          decide
        have hreg : S_ISREG (slotMode fs d inum) = false := by
          simp only [S_ISREG, hmask]
          decide
        have hne1 : (slotMode fs d inum == T_DIR) = false := by
          rw [beq_eq_false_iff_ne]
          intro hm
          rw [hm] at hmask
          exact absurd hmask (by decide)
        simp [ilockTypeOf, hdir, hreg, hne1, hc]
    have hilock : ext2fs_ilock fs d oldType inum =
        .ok ⟨ilockTypeOf fs d oldType inum, slotNlink fs d inum,
          slotSize fs d inum⟩ := by
      unfold ext2fs_ilock
      rw [if_neg (by omega), if_neg (by rcases htype with ht | ht <;> rw [ht] <;> decide)]
    have hcf : create_found fs d T_FILE oldType inum = .fail := by
      simp only [create_found, hilock]
      rw [if_neg (fun hcc => by
        rcases htype with ht | ht <;> rw [ht] at hcc <;> exact absurd hcc.2 (by decide))]
    simp only [open_file_create, hcf]

/-- Witness for C10: on inode 1 of the witness volume, a mode-`S_IFREG`
slot opens to the existing file (size 10 intact), a mode-`S_IFDIR` slot
makes the open return `-1`. -/
theorem c10_witness :
    fsW.sb.s_inode_size ≤ EXT2_MAX_INODE_SIZE ∧
    S_ISREG (slotMode fsW dC10f 1) = true ∧
    open_file_create fsW dC10f 0 1 true true 3 = .ok 3 ⟨T_FILE, 1, 10⟩ ∧
    S_ISDIR (slotMode fsW dC10d 1) = true ∧
    open_file_create fsW dC10d 0 1 true true 3 = .err := by
  refine ⟨by decide, by decide, ?_, by decide, ?_⟩
  · exact (c10_ocreate_existing fsW dC10f 0 1 true true 3 (by decide)).1
      (by decide) rfl rfl
  · exact (c10_ocreate_existing fsW dC10d 0 1 true true 3 (by decide)).2
      (Or.inl (by decide))

end XV6
